import Mathlib

/-!
# Verification of the generalized-median participatory-budgeting solver

Shallow embedding of `src/nitay_levy_matala_9.py`: the phantom-value solver
(`compute_budget`, binary-search-free variant `no_binary_search_compute_budget`)
together with its median allocation function, aggregate total/slope estimator,
breakpoint scan and largest-remainder integer rounding stage.

Modelling conventions:
* Python `float` arithmetic is modelled by exact rational arithmetic (`ℚ`);
  the literal tolerance constants `1e-8`, `1e-9`, `1e-11` of the source are
  kept as the exact rationals `1/10^8`, `1/10^9`, `1/10^11`.
* Vote amounts and the budget are integers (`ℤ`), following the source's
  `int` type annotations.
* A Python run that raises an uncaught exception (`IndexError` from
  `indices[i]`, `ZeroDivisionError` from `i % num_subjects` with
  `num_subjects = 0`) is modelled as `none`; a normal return is `some`.
* Reading `citizen[i]` is modelled with `List.getD _ i 0`; every theorem about
  inputs that exercise the read carries the equal-row-length hypothesis under
  which the two agree (the source raises on ragged input, which no claim
  covers).
* Python's `sorted(range(n), key=k, reverse=True)` with the injective keys
  used here (each key carries `-i`) equals the reverse of the ascending
  lexicographic sort, which is how it is modelled.
-/

namespace Matala9

/-- The finite-difference step `eps = 1e-8` used by `get_total_and_slope`. -/
def eps : ℚ := 1 / 10 ^ 8

/-- The segment/slope tolerance `1e-9` used by the breakpoint scan. -/
def segTol : ℚ := 1 / 10 ^ 9

/-- The downward floor tolerance `1e-11` used before truncation. -/
def floorTol : ℚ := 1 / 10 ^ 11

/-- `get_subject_allocation(votes, x)`: median of the multiset
`{0, v1, ..., vn, x}`, computed exactly as in the source: sort
`votes + [0, x]`, take the middle element if the length is odd, else the
mean of the two middle elements. -/
def get_subject_allocation (votes : List ℤ) (x : ℚ) : ℚ :=
  let arr := ((votes.map (fun v : ℤ => (v : ℚ))) ++ [0, x]).insertionSort (· ≤ ·)
  let n := arr.length
  if n % 2 = 1 then arr.getD (n / 2) 0
  else (arr.getD (n / 2 - 1) 0 + arr.getD (n / 2) 0) / 2

/-- `get_total_and_slope(x)` as in `compute_budget`: fold over the subjects,
accumulating the total allocation and the finite-difference slope; this
variant only adds a subject's difference quotient when the allocation
strictly increased. -/
def get_total_and_slope (vps : List (List ℤ)) (x : ℚ) : ℚ × ℚ :=
  vps.foldl
    (fun acc votes =>
      let v_now := get_subject_allocation votes x
      let v_next := get_subject_allocation votes (x + eps)
      (acc.1 + v_now, if v_now < v_next then acc.2 + (v_next - v_now) / eps else acc.2))
    (0, 0)

/-- `get_total_and_slope(x)` as in `no_binary_search_compute_budget`: the
difference quotient is added unconditionally. -/
def get_total_and_slope_nb (vps : List (List ℤ)) (x : ℚ) : ℚ × ℚ :=
  vps.foldl
    (fun acc votes =>
      let v_now := get_subject_allocation votes x
      let v_next := get_subject_allocation votes (x + eps)
      (acc.1 + v_now, acc.2 + (v_next - v_now) / eps))
    (0, 0)

/-- `votes_per_subject`: for each subject index, the ascending sort of all
citizens' amounts for that subject. -/
def votes_per_subject (cv : List (List ℤ)) : List (List ℤ) :=
  (List.range (cv.headD []).length).map
    (fun i => (cv.map (fun c => c.getD i 0)).insertionSort (· ≤ ·))

/-- All breakpoint values, `0` first, then every submitted amount (with
duplicates; the set semantics of the source is recovered by `dedup`). -/
def breakList (vps : List (List ℤ)) : List ℤ :=
  vps.foldl (fun acc votes => acc ++ votes) [0]

/-- `sorted_breaks`: the ascending list of distinct breakpoints, modelling
Python's `sorted({0} ∪ votes)`. -/
def sorted_breaks (vps : List (List ℤ)) : List ℤ :=
  ((breakList vps).dedup).insertionSort (· ≤ ·)

/-- Consecutive pairs `(breaks[i], breaks[i+1])`, the segments the scan
iterates over. -/
def consecPairs : List ℤ → List (ℤ × ℤ)
  | [] => []
  | [_] => []
  | a :: b :: rest => (a, b) :: consecPairs (b :: rest)

/-- The phantom value chosen on a segment starting at `xl`:
`xl + (B - total(xl)) / slope(xl)` when the slope exceeds the tolerance,
otherwise `xl`.  Also used verbatim for the extrapolation past the last
breakpoint. -/
def segmentValue (ts : ℚ → ℚ × ℚ) (B : ℚ) (xl : ℚ) : ℚ :=
  let p := ts xl
  if segTol < p.2 then xl + (B - p.1) / p.2 else xl

/-- The scan's bracketing test on a consecutive breakpoint pair:
`total(x_low) ≤ B ≤ total(x_high) + 1e-9`. -/
def bracketCond (ts : ℚ → ℚ × ℚ) (B : ℚ) (p : ℤ × ℤ) : Prop :=
  (ts (p.1 : ℚ)).1 ≤ B ∧ B ≤ (ts (p.2 : ℚ)).1 + segTol

instance (ts : ℚ → ℚ × ℚ) (B : ℚ) (p : ℤ × ℤ) : Decidable (bracketCond ts B p) := by
  unfold bracketCond; infer_instance

/-- The breakpoint scan: find the first consecutive pair `(xl, xh)` with
`total(xl) ≤ B ≤ total(xh) + 1e-9` and return the segment's phantom value. -/
def scanSegments (ts : ℚ → ℚ × ℚ) (B : ℚ) : List (ℤ × ℤ) → Option ℚ
  | [] => none
  | p :: rest =>
    if bracketCond ts B p then some (segmentValue ts B (p.1 : ℚ))
    else scanSegments ts B rest

/-- The solver's phantom value: the scan result, or the extrapolation from
the largest breakpoint when no segment brackets the budget. -/
def target_x (ts : ℚ → ℚ × ℚ) (B : ℚ) (breaks : List ℤ) : ℚ :=
  match scanSegments ts B (consecPairs breaks) with
  | some t => t
  | none => segmentValue ts B ((breaks.getLastD 0 : ℤ) : ℚ)

/-- `int(math.floor(f + 1e-11))`. -/
def floor_tol (f : ℚ) : ℤ := ⌊f + floorTol⌋

/-- Round-half-to-even on `ℚ`, the semantics of Python's `round`. -/
def roundHalfEven (q : ℚ) : ℤ :=
  if q - ⌊q⌋ = 1 / 2 then (if ⌊q⌋ % 2 = 0 then ⌊q⌋ else ⌊q⌋ + 1) else round q

/-- Python's `round(q, 10)`: round to the nearest multiple of `10⁻¹⁰`,
ties to even. -/
def round10 (q : ℚ) : ℚ := (roundHalfEven (q * 10 ^ 10) : ℚ) / 10 ^ 10

/-- Lexicographic order on the sort keys `(fractional part, -index)`. -/
def lexLe (a b : ℚ × ℤ) : Prop := a.1 < b.1 ∨ (a.1 = b.1 ∧ a.2 ≤ b.2)

instance (a b : ℚ × ℤ) : Decidable (lexLe a b) := by
  unfold lexLe; infer_instance

/-- The fractional remainder `floats[i] - ints[i]` of subject `i`. -/
def fracPart (floats : List ℚ) (ints : List ℤ) (i : ℕ) : ℚ :=
  floats.getD i 0 - (ints.getD i 0 : ℚ)

/-- `compute_budget`'s tie-break key `(floats[i] - ints[i], -i)`. -/
def keyC (floats : List ℚ) (ints : List ℤ) (i : ℕ) : ℚ × ℤ :=
  (fracPart floats ints i, -(i : ℤ))

/-- `no_binary_search_compute_budget`'s key
`(round(floats[i] - ints[i], 10), -i)`. -/
def keyNB (floats : List ℚ) (ints : List ℤ) (i : ℕ) : ℚ × ℤ :=
  (round10 (fracPart floats ints i), -(i : ℤ))

/-- The ascending comparison of two subject indices under a sort key. -/
def keyOrder (key : ℕ → ℚ × ℤ) (i j : ℕ) : Prop := lexLe (key i) (key j)

instance (key : ℕ → ℚ × ℤ) (i j : ℕ) : Decidable (keyOrder key i j) := by
  unfold keyOrder; infer_instance

instance (key : ℕ → ℚ × ℤ) : IsTotal ℕ (keyOrder key) := by
  constructor
  intro i j
  unfold keyOrder lexLe
  rcases lt_trichotomy (key i).1 (key j).1 with h | h | h
  · exact Or.inl (Or.inl h)
  · rcases le_total (key i).2 (key j).2 with h2 | h2
    · exact Or.inl (Or.inr ⟨h, h2⟩)
    · exact Or.inr (Or.inr ⟨h.symm, h2⟩)
  · exact Or.inr (Or.inl h)

instance (key : ℕ → ℚ × ℤ) : IsTrans ℕ (keyOrder key) := by
  constructor
  intro i j k hij hjk
  unfold keyOrder lexLe at *
  rcases hij with h1 | ⟨h1, h1'⟩
  · rcases hjk with h2 | ⟨h2, _⟩
    · exact Or.inl (h1.trans h2)
    · exact Or.inl (h2 ▸ h1)
  · rcases hjk with h2 | ⟨h2, h2'⟩
    · exact Or.inl (h1 ▸ h2)
    · exact Or.inr ⟨h1.trans h2, h1'.trans h2'⟩

/-- `sorted(range(m), key=key, reverse=True)` for the injective keys used
here: the reverse of the ascending lexicographic sort. -/
def sortIndices (key : ℕ → ℚ × ℤ) (m : ℕ) : List ℕ :=
  ((List.range m).insertionSort (keyOrder key)).reverse

/-- The unit-distribution loop of `compute_budget`:
`for i in range(r): ints[indices[i]] += 1`; `none` models the `IndexError`
raised when `i` runs past the end of `indices`. -/
def distribute_units (indices : List ℕ) : List ℤ → ℕ → ℕ → Option (List ℤ)
  | ints, _, 0 => some ints
  | ints, i, r + 1 =>
    match indices[i]? with
    | none => none
    | some j => distribute_units indices (ints.set j (ints.getD j 0 + 1)) (i + 1) r

/-- The unit-distribution loop of `no_binary_search_compute_budget`:
`for i in range(r): ints[indices[i % m]] += 1`; `none` models the
`ZeroDivisionError` raised by `i % 0`. -/
def distribute_units_mod (indices : List ℕ) (m : ℕ) : List ℤ → ℕ → ℕ → Option (List ℤ)
  | ints, _, 0 => some ints
  | ints, i, r + 1 =>
    if m = 0 then none
    else
      let j := indices.getD (i % m) 0
      distribute_units_mod indices m (ints.set j (ints.getD j 0 + 1)) (i + 1) r

/-- `num_subjects = len(citizen_votes[0])`. -/
def numSubjects (citizen_votes : List (List ℤ)) : ℕ :=
  (citizen_votes.headD []).length

/-- The phantom value computed by `compute_budget`. -/
def txC (total_budget : ℤ) (citizen_votes : List (List ℤ)) : ℚ :=
  target_x (get_total_and_slope (votes_per_subject citizen_votes))
    (total_budget : ℚ) (sorted_breaks (votes_per_subject citizen_votes))

/-- The phantom value computed by `no_binary_search_compute_budget`. -/
def txNB (total_budget : ℤ) (citizen_votes : List (List ℤ)) : ℚ :=
  target_x (get_total_and_slope_nb (votes_per_subject citizen_votes))
    (total_budget : ℚ) (sorted_breaks (votes_per_subject citizen_votes))

/-- The continuous per-subject allocations at a phantom value. -/
def floatsAt (citizen_votes : List (List ℤ)) (tx : ℚ) : List ℚ :=
  (votes_per_subject citizen_votes).map (fun v => get_subject_allocation v tx)

/-- The floored (tolerance-adjusted) integer allocations. -/
def intsOf (floats : List ℚ) : List ℤ := floats.map floor_tol

/-- `compute_budget`'s floats list. -/
def floatsC (total_budget : ℤ) (citizen_votes : List (List ℤ)) : List ℚ :=
  floatsAt citizen_votes (txC total_budget citizen_votes)

/-- `compute_budget`'s ints list. -/
def intsC (total_budget : ℤ) (citizen_votes : List (List ℤ)) : List ℤ :=
  intsOf (floatsC total_budget citizen_votes)

/-- `compute_budget`'s rounding shortfall `remainder`. -/
def remainderC (total_budget : ℤ) (citizen_votes : List (List ℤ)) : ℤ :=
  total_budget - (intsC total_budget citizen_votes).sum

/-- `no_binary_search_compute_budget`'s floats list. -/
def floatsNB (total_budget : ℤ) (citizen_votes : List (List ℤ)) : List ℚ :=
  floatsAt citizen_votes (txNB total_budget citizen_votes)

/-- `no_binary_search_compute_budget`'s ints list. -/
def intsNB (total_budget : ℤ) (citizen_votes : List (List ℤ)) : List ℤ :=
  intsOf (floatsNB total_budget citizen_votes)

/-- `no_binary_search_compute_budget`'s rounding shortfall. -/
def remainderNB (total_budget : ℤ) (citizen_votes : List (List ℤ)) : ℤ :=
  total_budget - (intsNB total_budget citizen_votes).sum

/-- `compute_budget(total_budget, citizen_votes)` (binary-search file variant;
the scan itself is linear in both variants of the source). -/
def compute_budget (total_budget : ℤ) (citizen_votes : List (List ℤ)) :
    Option (List ℤ) :=
  if citizen_votes = [] then some [] else
  let floats := floatsC total_budget citizen_votes
  let ints := intsC total_budget citizen_votes
  if 0 < remainderC total_budget citizen_votes then
    let indices := sortIndices (keyC floats ints) (numSubjects citizen_votes)
    distribute_units indices ints 0 (remainderC total_budget citizen_votes).toNat
  else some ints

/-- `no_binary_search_compute_budget(total_budget, citizen_votes)`. -/
def no_binary_search_compute_budget (total_budget : ℤ)
    (citizen_votes : List (List ℤ)) : Option (List ℤ) :=
  if citizen_votes = [] then some [] else
  let floats := floatsNB total_budget citizen_votes
  let ints := intsNB total_budget citizen_votes
  if 0 < remainderNB total_budget citizen_votes then
    let indices := sortIndices (keyNB floats ints) (numSubjects citizen_votes)
    distribute_units_mod indices (numSubjects citizen_votes) ints 0
      (remainderNB total_budget citizen_votes).toNat
  else some ints

/-- `sorted(votes + [0])`: the sorted augmented vote list of one subject
without the phantom value; the phantom is inserted into it. -/
def sortedBase (votes : List ℤ) : List ℚ :=
  ((votes.map (fun v : ℤ => (v : ℚ))) ++ [0]).insertionSort (· ≤ ·)

/-- The slope coefficient contributed by one subject on a linear segment,
determined by where the phantom value sits in the sorted list: 1 when the
middle element is the phantom, 1/2 when the phantom is one of two averaged
middle elements, 0 otherwise. -/
def coef (T D : List ℚ) : ℚ :=
  let N := T.length + D.length + 1
  let mid := N / 2
  if N % 2 = 1 then (if mid = T.length then 1 else 0)
  else ((if mid - 1 = T.length then 1 else 0) + (if mid = T.length then 1 else 0)) / 2

/-- A subject's slope coefficient on the segment starting at `xl`. -/
def subjectCoef (votes : List ℤ) (xl : ℚ) : ℚ :=
  coef ((sortedBase votes).takeWhile (· ≤ xl)) ((sortedBase votes).dropWhile (· ≤ xl))

/-- The middle-of-sorted-list extraction shared by both median notions. -/
def medList (arr : List ℚ) : ℚ :=
  if arr.length % 2 = 1 then arr.getD (arr.length / 2) 0
  else (arr.getD (arr.length / 2 - 1) 0 + arr.getD (arr.length / 2) 0) / 2

/-- The specification's distribution order: strictly larger fractional
remainder first; among equal remainders, the lower subject index first. -/
def lrOrder (f : ℕ → ℚ) (i j : ℕ) : Prop := f j < f i ∨ (f i = f j ∧ i ≤ j)

/-- The median of a multiset of rationals, following the specification's
words: sort the multiset ascending; if the size is odd return the exact
middle element, if even the arithmetic mean of the two middle elements. -/
def medianSpec (s : Multiset ℚ) : ℚ :=
  let arr := s.sort (· ≤ ·)
  let n := arr.length
  if n % 2 = 1 then arr.getD (n / 2) 0
  else (arr.getD (n / 2 - 1) 0 + arr.getD (n / 2) 0) / 2

/-- The subject count of the tie-break counterexample instance: `4·10¹⁰`
subjects beyond subject 0, so that the phantom value `1/(4·10¹⁰)` gives
fractional remainders below the 10-decimal resolution of `round(·, 10)`. -/
def monsterK : ℕ := 40000000000

/-- The tie-break counterexample vote matrix: 3 citizens over `monsterK + 1`
subjects; subject 0 receives the votes `2, 2, 2` and every other subject the
votes `0, 1, 1`. -/
def monsterCV : List (List ℤ) :=
  [(2 : ℤ) :: List.replicate monsterK 0,
   (2 : ℤ) :: List.replicate monsterK 1,
   (2 : ℤ) :: List.replicate monsterK 1]

set_option maxRecDepth 6000 in
/-! ## Order and median toolkit -/

lemma get_subject_allocation_eq_medList (votes : List ℤ) (x : ℚ) :
    get_subject_allocation votes x =
      medList (((votes.map (fun v : ℤ => (v : ℚ))) ++ [0, x]).insertionSort (· ≤ ·)) := rfl

lemma forall2_getD {a b : List ℚ} (h : List.Forall₂ (· ≤ ·) a b) (i : ℕ) :
    a.getD i 0 ≤ b.getD i 0 := by
  induction h generalizing i with
  | nil => simp
  | cons hab _ ih =>
    cases i with
    | zero => simpa using hab
    | succ i => simpa using ih i

lemma medList_mono {a b : List ℚ} (h : List.Forall₂ (· ≤ ·) a b) :
    medList a ≤ medList b := by
  have hl : a.length = b.length := h.length_eq
  unfold medList
  rw [hl]
  by_cases hodd : b.length % 2 = 1
  · simpa [hodd] using forall2_getD h (b.length / 2)
  · have h1 := forall2_getD h (b.length / 2 - 1)
    have h2 := forall2_getD h (b.length / 2)
    simp only [hodd, if_false]
    linarith

lemma forall2_cons_orderedInsert {h v : ℚ} {t : List ℚ}
    (ht : (h :: t).Sorted (· ≤ ·)) (hv : h ≤ v) :
    List.Forall₂ (· ≤ ·) (h :: t) (List.orderedInsert (· ≤ ·) v t) := by
  induction t generalizing h with
  | nil => simpa using hv
  | cons a t' ih =>
    by_cases hva : v ≤ a
    · simp only [List.orderedInsert, if_pos hva]
      exact List.Forall₂.cons hv (List.forall₂_refl _)
    · simp only [List.orderedInsert, if_neg hva]
      have hha : h ≤ a := (List.sorted_cons.mp ht).1 a (by simp)
      refine List.Forall₂.cons hha (ih ?_ ?_)
      · exact (List.sorted_cons.mp ht).2
      · exact le_of_not_le hva

lemma forall2_orderedInsert {v v' : ℚ} (hvv : v ≤ v') {s : List ℚ}
    (hs : s.Sorted (· ≤ ·)) :
    List.Forall₂ (· ≤ ·) (List.orderedInsert (· ≤ ·) v s)
      (List.orderedInsert (· ≤ ·) v' s) := by
  induction s with
  | nil => simpa using hvv
  | cons h t ih =>
    by_cases h1 : v ≤ h
    · by_cases h2 : v' ≤ h
      · simp only [List.orderedInsert, if_pos h1, if_pos h2]
        exact List.Forall₂.cons hvv (List.forall₂_refl _)
      · simp only [List.orderedInsert, if_pos h1, if_neg h2]
        exact List.Forall₂.cons h1 (forall2_cons_orderedInsert hs (le_of_not_le h2))
    · have h2 : ¬ v' ≤ h := fun hc => h1 (le_trans hvv hc)
      simp only [List.orderedInsert, if_neg h1, if_neg h2]
      exact List.Forall₂.cons (le_refl h) (ih (List.sorted_cons.mp hs).2)

lemma insertionSort_congr_perm {l₁ l₂ : List ℚ} (h : l₁.Perm l₂) :
    l₁.insertionSort (· ≤ ·) = l₂.insertionSort (· ≤ ·) :=
  List.eq_of_perm_of_sorted
    ((List.perm_insertionSort _ _).trans (h.trans (List.perm_insertionSort _ _).symm))
    (List.sorted_insertionSort _ _) (List.sorted_insertionSort _ _)

lemma insertionSort_middle (pre post : List ℚ) (u : ℚ) :
    (pre ++ u :: post).insertionSort (· ≤ ·) =
      List.orderedInsert (· ≤ ·) u ((pre ++ post).insertionSort (· ≤ ·)) := by
  have h : (pre ++ u :: post).Perm (u :: (pre ++ post)) := List.perm_middle
  rw [insertionSort_congr_perm h]
  rfl

/-! ## Breakpoint-scan toolkit -/

lemma scanSegments_cons (ts : ℚ → ℚ × ℚ) (B : ℚ) (p : ℤ × ℤ)
    (rest : List (ℤ × ℤ)) :
    scanSegments ts B (p :: rest) =
      if bracketCond ts B p then some (segmentValue ts B (p.1 : ℚ))
      else scanSegments ts B rest := rfl

lemma consecPairs_length : ∀ l : List ℤ, (consecPairs l).length = l.length - 1
  | [] => rfl
  | [_] => rfl
  | a :: b :: rest => by
    simpa [consecPairs] using consecPairs_length (b :: rest)

lemma consecPairs_getD (l : List ℤ) (i : ℕ) (hi : i + 1 < l.length) :
    (consecPairs l).getD i (0, 0) = (l.getD i 0, l.getD (i + 1) 0) := by
  induction l generalizing i with
  | nil => simp at hi
  | cons a t ih =>
    cases t with
    | nil => simp at hi
    | cons b rest =>
      cases i with
      | zero => simp [consecPairs]
      | succ i =>
        have := ih i (by simpa using hi)
        simpa [consecPairs] using this

lemma scanSegments_some_of_first (ts : ℚ → ℚ × ℚ) (B : ℚ) :
    ∀ (ps : List (ℤ × ℤ)) (i : ℕ), i < ps.length →
      bracketCond ts B (ps.getD i (0, 0)) →
      (∀ j, j < i → ¬ bracketCond ts B (ps.getD j (0, 0))) →
      scanSegments ts B ps = some (segmentValue ts B ((ps.getD i (0, 0)).1 : ℚ)) := by
  intro ps
  induction ps with
  | nil => intro i hi; simp at hi
  | cons p rest ih =>
    intro i hi hcond hfirst
    cases i with
    | zero =>
      rw [scanSegments_cons]
      have hc : bracketCond ts B p := by simpa using hcond
      rw [if_pos hc]
      simp
    | succ i =>
      have hnp : ¬ bracketCond ts B p := by
        simpa using hfirst 0 (Nat.succ_pos i)
      rw [scanSegments_cons, if_neg hnp]
      have := ih i (by simpa using hi) (by simpa using hcond)
        (fun j hj => by simpa using hfirst (j + 1) (by omega))
      simpa using this

lemma scanSegments_none_of_all (ts : ℚ → ℚ × ℚ) (B : ℚ) :
    ∀ (ps : List (ℤ × ℤ)), (∀ p ∈ ps, ¬ bracketCond ts B p) →
      scanSegments ts B ps = none := by
  intro ps
  induction ps with
  | nil => intro _; rfl
  | cons p rest ih =>
    intro h
    rw [scanSegments_cons, if_neg (h p (by simp))]
    exact ih (fun q hq => h q (by simp [hq]))

/-! ## Rounding-stage toolkit -/

lemma sum_set_incr (ints : List ℤ) (j : ℕ) (hj : j < ints.length) :
    (ints.set j (ints.getD j 0 + 1)).sum = ints.sum + 1 := by
  rw [List.sum_set']
  rw [dif_pos hj]
  rw [List.getD_eq_getElem ints 0 hj]
  ring

lemma distribute_units_sum (indices : List ℕ)
    (hidx : ∀ j ∈ indices, j < indices.length) :
    ∀ (r : ℕ) (ints : List ℤ) (i : ℕ), ints.length = indices.length →
      ∀ out, distribute_units indices ints i r = some out →
        out.sum = ints.sum + r := by
  intro r
  induction r with
  | zero =>
    intro ints i _ out hout
    simp only [distribute_units] at hout
    cases hout
    simp
  | succ r ih =>
    intro ints i hlen out hout
    simp only [distribute_units] at hout
    cases hj : indices[i]? with
    | none => rw [hj] at hout; exact absurd hout (by simp)
    | some j =>
      rw [hj] at hout
      have hjlen : j < ints.length := by
        rw [hlen]
        exact hidx j (List.getElem?_mem hj)
      have := ih (ints.set j (ints.getD j 0 + 1)) (i + 1) (by simpa using hlen) out hout
      rw [this, sum_set_incr ints j hjlen]
      push_cast
      ring

lemma distribute_units_none (indices : List ℕ) :
    ∀ (r : ℕ) (ints : List ℤ) (i : ℕ), indices.length ≤ i → 0 < r →
      distribute_units indices ints i r = none := by
  intro r
  induction r with
  | zero => intro _ _ _ h; exact absurd h (by omega)
  | succ r ih =>
    intro ints i hi _
    simp only [distribute_units]
    rw [List.getElem?_eq_none hi]

lemma distribute_units_mod_some (indices : List ℕ) (m : ℕ) (hm : m ≠ 0)
    (hlen : indices.length = m) (hidx : ∀ j ∈ indices, j < m) :
    ∀ (r : ℕ) (ints : List ℤ) (i : ℕ), ints.length = m →
      ∃ out, distribute_units_mod indices m ints i r = some out ∧
        out.sum = ints.sum + r ∧ out.length = m := by
  intro r
  induction r with
  | zero =>
    intro ints i hil
    exact ⟨ints, rfl, by simp, hil⟩
  | succ r ih =>
    intro ints i hil
    have him : i % m < indices.length := by
      rw [hlen]
      exact Nat.mod_lt i (Nat.pos_of_ne_zero hm)
    have hjm : indices.getD (i % m) 0 < m := by
      rw [List.getD_eq_getElem _ _ him]
      exact hidx _ (List.getElem_mem him)
    obtain ⟨out, hout, hsum, hol⟩ := ih
      (ints.set (indices.getD (i % m) 0) (ints.getD (indices.getD (i % m) 0) 0 + 1))
      (i + 1) (by simpa using hil)
    refine ⟨out, ?_, ?_, hol⟩
    · simp only [distribute_units_mod, if_neg hm]
      exact hout
    · rw [hsum, sum_set_incr _ _ (by rw [hil]; exact hjm)]
      push_cast
      ring

lemma distribute_units_mod_eq (indices : List ℕ) (m : ℕ)
    (hlen : indices.length = m) :
    ∀ (r : ℕ) (ints : List ℤ) (i : ℕ), i + r ≤ m →
      distribute_units_mod indices m ints i r = distribute_units indices ints i r := by
  intro r
  induction r with
  | zero => intro ints i _; rfl
  | succ r ih =>
    intro ints i hir
    have hm : m ≠ 0 := by omega
    have him : i < indices.length := by omega
    simp only [distribute_units_mod, distribute_units, if_neg hm]
    rw [List.getElem?_eq_getElem him]
    rw [Nat.mod_eq_of_lt (by omega), List.getD_eq_getElem _ _ him]
    exact ih _ (i + 1) (by omega)

lemma sortIndices_perm (key : ℕ → ℚ × ℤ) (m : ℕ) :
    (sortIndices key m).Perm (List.range m) := by
  unfold sortIndices
  exact (List.reverse_perm _).trans (List.perm_insertionSort _ _)

lemma sortIndices_length (key : ℕ → ℚ × ℤ) (m : ℕ) :
    (sortIndices key m).length = m := by
  rw [(sortIndices_perm key m).length_eq, List.length_range]

lemma sortIndices_mem_lt (key : ℕ → ℚ × ℤ) (m : ℕ) :
    ∀ j ∈ sortIndices key m, j < m := by
  intro j hj
  have := (sortIndices_perm key m).mem_iff.mp hj
  simpa using this

lemma votes_per_subject_length (cv : List (List ℤ)) :
    (votes_per_subject cv).length = numSubjects cv := by
  simp [votes_per_subject, numSubjects]

lemma floatsAt_length (cv : List (List ℤ)) (tx : ℚ) :
    (floatsAt cv tx).length = numSubjects cv := by
  simp [floatsAt, votes_per_subject_length]

lemma intsNB_length (B : ℤ) (cv : List (List ℤ)) :
    (intsNB B cv).length = numSubjects cv := by
  simp [intsNB, intsOf, floatsNB, floatsAt_length]

lemma intsC_length (B : ℤ) (cv : List (List ℤ)) :
    (intsC B cv).length = numSubjects cv := by
  simp [intsC, intsOf, floatsC, floatsAt_length]

lemma distribute_units_overrun (indices : List ℕ) :
    ∀ (r : ℕ) (ints : List ℤ) (i : ℕ), indices.length < i + r → 0 < r →
      distribute_units indices ints i r = none := by
  intro r
  induction r with
  | zero => intro _ i _ h; omega
  | succ r ih =>
    intro ints i hi _
    by_cases hil : i < indices.length
    · simp only [distribute_units]
      rw [List.getElem?_eq_getElem hil]
      exact ih _ (i + 1) (by omega) (by omega)
    · simp only [distribute_units]
      rw [List.getElem?_eq_none (by omega)]

/-! ## Monotonicity in the phantom value and slope-variant agreement -/

lemma get_subject_allocation_mono_x (votes : List ℤ) {x x' : ℚ} (hx : x ≤ x') :
    get_subject_allocation votes x ≤ get_subject_allocation votes x' := by
  rw [get_subject_allocation_eq_medList, get_subject_allocation_eq_medList]
  apply medList_mono
  have hperm : ∀ u : ℚ, ((votes.map (fun v : ℤ => (v : ℚ))) ++ [0, u]).Perm
      (u :: ((votes.map (fun v : ℤ => (v : ℚ))) ++ [0])) := by
    intro u
    have : (votes.map (fun v : ℤ => (v : ℚ))) ++ [0, u] =
        ((votes.map (fun v : ℤ => (v : ℚ))) ++ [0]) ++ [u] := by simp
    rw [this]
    exact List.perm_append_singleton u _
  rw [insertionSort_congr_perm (hperm x), insertionSort_congr_perm (hperm x')]
  exact forall2_orderedInsert hx (List.sorted_insertionSort _ _)

lemma get_total_and_slope_eq_nb (vps : List (List ℤ)) (x : ℚ) :
    get_total_and_slope vps x = get_total_and_slope_nb vps x := by
  unfold get_total_and_slope get_total_and_slope_nb
  apply List.foldl_ext
  intro acc votes _
  dsimp only
  by_cases hlt : get_subject_allocation votes x < get_subject_allocation votes (x + eps)
  · rw [if_pos hlt]
  · rw [if_neg hlt]
    have hle : get_subject_allocation votes x ≤ get_subject_allocation votes (x + eps) :=
      get_subject_allocation_mono_x votes (by unfold eps; linarith)
    have : get_subject_allocation votes (x + eps) = get_subject_allocation votes x :=
      le_antisymm (le_of_not_lt hlt) hle
    rw [this]
    simp

lemma txC_eq_txNB (B : ℤ) (cv : List (List ℤ)) : txC B cv = txNB B cv := by
  unfold txC txNB
  congr 1
  funext x
  exact get_total_and_slope_eq_nb _ x

lemma floatsC_eq_floatsNB (B : ℤ) (cv : List (List ℤ)) :
    floatsC B cv = floatsNB B cv := by
  unfold floatsC floatsNB
  rw [txC_eq_txNB]

lemma intsC_eq_intsNB (B : ℤ) (cv : List (List ℤ)) : intsC B cv = intsNB B cv := by
  unfold intsC intsNB
  rw [floatsC_eq_floatsNB]

lemma remainderC_eq_remainderNB (B : ℤ) (cv : List (List ℤ)) :
    remainderC B cv = remainderNB B cv := by
  unfold remainderC remainderNB
  rw [intsC_eq_intsNB]

/-! ## Aggregate-total and breakpoint-structure toolkit -/

lemma get_total_and_slope_fst (vps : List (List ℤ)) (x : ℚ) :
    (get_total_and_slope vps x).1 =
      (vps.map (fun v => get_subject_allocation v x)).sum := by
  suffices h : ∀ acc : ℚ × ℚ,
      (vps.foldl
        (fun acc votes =>
          let v_now := get_subject_allocation votes x
          let v_next := get_subject_allocation votes (x + eps)
          (acc.1 + v_now,
            if v_now < v_next then acc.2 + (v_next - v_now) / eps else acc.2))
        acc).1 = acc.1 + (vps.map (fun v => get_subject_allocation v x)).sum by
    have := h (0, 0)
    unfold get_total_and_slope
    rw [this]
    ring
  induction vps with
  | nil => intro acc; simp
  | cons v t ih =>
    intro acc
    rw [List.foldl_cons]
    rw [ih]
    dsimp only
    rw [List.map_cons, List.sum_cons]
    ring

lemma getD_nonneg {c : List ℤ} (hc : ∀ v ∈ c, 0 ≤ v) (i : ℕ) : 0 ≤ c.getD i 0 := by
  by_cases hi : i < c.length
  · rw [List.getD_eq_getElem _ _ hi]
    exact hc _ (List.getElem_mem hi)
  · rw [List.getD_eq_default _ _ (by omega)]

lemma votes_per_subject_nonneg (cv : List (List ℤ))
    (hcv : ∀ row ∈ cv, ∀ v ∈ row, 0 ≤ v) :
    ∀ votes ∈ votes_per_subject cv, ∀ v ∈ votes, 0 ≤ v := by
  intro votes hvotes v hv
  unfold votes_per_subject at hvotes
  obtain ⟨i, _, hvi⟩ := List.mem_map.mp hvotes
  rw [← hvi] at hv
  rw [List.mem_insertionSort] at hv
  obtain ⟨c, hc, hcv'⟩ := List.mem_map.mp hv
  rw [← hcv']
  exact getD_nonneg (hcv c hc) i

lemma medList_nonneg {arr : List ℚ} (h : ∀ v ∈ arr, 0 ≤ v) : 0 ≤ medList arr := by
  have hD : ∀ i, 0 ≤ arr.getD i 0 := by
    intro i
    by_cases hi : i < arr.length
    · rw [List.getD_eq_getElem _ _ hi]
      exact h _ (List.getElem_mem hi)
    · rw [List.getD_eq_default _ _ (by omega)]
  unfold medList
  split_ifs
  · exact hD _
  · have h1 := hD (arr.length / 2 - 1)
    have h2 := hD (arr.length / 2)
    linarith

lemma get_subject_allocation_nonneg {votes : List ℤ} (hv : ∀ v ∈ votes, 0 ≤ v)
    {x : ℚ} (hx : 0 ≤ x) : 0 ≤ get_subject_allocation votes x := by
  rw [get_subject_allocation_eq_medList]
  apply medList_nonneg
  intro v hvmem
  rw [List.mem_insertionSort] at hvmem
  rcases List.mem_append.mp hvmem with h | h
  · obtain ⟨w, hw, hwv⟩ := List.mem_map.mp h
    rw [← hwv]
    exact_mod_cast hv w hw
  · rcases List.mem_cons.mp h with h1 | h1
    · rw [h1]
    · rcases List.mem_cons.mp h1 with h2 | h2
      · rw [h2]
        exact hx
      · exact absurd h2 (by simp)

lemma breakList_eq (vps : List (List ℤ)) : breakList vps = 0 :: vps.flatten := by
  suffices h : ∀ init : List ℤ,
      vps.foldl (fun acc votes => acc ++ votes) init = init ++ vps.flatten by
    have := h [0]
    unfold breakList
    simpa using this
  induction vps with
  | nil => intro init; simp
  | cons v t ih =>
    intro init
    rw [List.foldl_cons, ih]
    simp

lemma mem_sorted_breaks (vps : List (List ℤ)) (b : ℤ) :
    b ∈ sorted_breaks vps ↔ b = 0 ∨ ∃ votes ∈ vps, b ∈ votes := by
  unfold sorted_breaks
  rw [List.mem_insertionSort, List.mem_dedup, breakList_eq]
  simp [List.mem_flatten]

lemma sorted_breaks_sorted (vps : List (List ℤ)) :
    (sorted_breaks vps).Sorted (· ≤ ·) := List.sorted_insertionSort _ _

lemma sorted_breaks_nodup (vps : List (List ℤ)) : (sorted_breaks vps).Nodup := by
  unfold sorted_breaks
  exact (List.perm_insertionSort _ _).nodup_iff.mpr (List.nodup_dedup _)

lemma sorted_breaks_ne_nil (vps : List (List ℤ)) : sorted_breaks vps ≠ [] := by
  intro h
  have : (0 : ℤ) ∈ sorted_breaks vps := (mem_sorted_breaks vps 0).mpr (Or.inl rfl)
  rw [h] at this
  exact absurd this (by simp)

lemma sorted_breaks_head_zero (vps : List (List ℤ))
    (hnn : ∀ votes ∈ vps, ∀ v ∈ votes, 0 ≤ v) :
    (sorted_breaks vps).getD 0 0 = 0 := by
  cases hsb : sorted_breaks vps with
  | nil => exact absurd hsb (sorted_breaks_ne_nil vps)
  | cons h t =>
    have hmem0 : (0 : ℤ) ∈ sorted_breaks vps := (mem_sorted_breaks vps 0).mpr (Or.inl rfl)
    have hsorted := sorted_breaks_sorted vps
    rw [hsb] at hmem0 hsorted
    have hh0 : h ≤ 0 := by
      rcases List.mem_cons.mp hmem0 with h1 | h1
      · omega
      · exact (List.sorted_cons.mp hsorted).1 0 h1
    have h0h : 0 ≤ h := by
      have hmemh : h ∈ sorted_breaks vps := by rw [hsb]; simp
      rcases (mem_sorted_breaks vps h).mp hmemh with h1 | ⟨votes, hv, hmem⟩
      · omega
      · exact hnn votes hv h hmem
    simp
    omega

lemma sum_zero_nonneg_all_zero {l : List ℚ} (hnn : ∀ x ∈ l, 0 ≤ x)
    (hsum : l.sum = 0) : ∀ x ∈ l, x = 0 := by
  induction l with
  | nil => simp
  | cons a t ih =>
    rw [List.sum_cons] at hsum
    have ha : 0 ≤ a := hnn a (by simp)
    have ht : 0 ≤ t.sum := List.sum_nonneg (fun x hx => hnn x (by simp [hx]))
    have ha0 : a = 0 := by linarith
    intro x hx
    rcases List.mem_cons.mp hx with h | h
    · rw [h, ha0]
    · exact ih (fun y hy => hnn y (by simp [hy])) (by linarith) x h

lemma floor_tol_zero : floor_tol 0 = 0 := by
  unfold floor_tol floorTol
  rw [zero_add]
  rw [Int.floor_eq_zero_iff]
  constructor <;> norm_num

/-! ## Round-half-even and tie-break-order toolkit -/

lemma roundHalfEven_le_of_le {q q' : ℚ} (h : q ≤ q') :
    roundHalfEven q ≤ roundHalfEven q' := by
  unfold roundHalfEven
  by_cases ht : q - ⌊q⌋ = 1 / 2
  · by_cases ht' : q' - ⌊q'⌋ = 1 / 2
    · rw [if_pos ht, if_pos ht']
      have hf : (⌊q⌋ : ℤ) ≤ ⌊q'⌋ := Int.floor_mono h
      by_cases heq : (⌊q⌋ : ℤ) = ⌊q'⌋
      · rw [heq]
      · have hlt : (⌊q⌋ : ℤ) < ⌊q'⌋ := lt_of_le_of_ne hf heq
        split_ifs <;> omega
    · rw [if_pos ht, if_neg ht']
      have hqq' : q < q' := by
        rcases lt_or_eq_of_le h with h1 | h1
        · exact h1
        · exact absurd (h1 ▸ ht) ht'
      have h1 : (⌊q⌋ : ℚ) + 1 ≤ q' + 1 / 2 := by
        have : q = ⌊q⌋ + 1 / 2 := by linarith
        linarith
      have h2 : (⌊q⌋ + 1 : ℤ) ≤ round q' := by
        rw [round_eq]
        apply Int.le_floor.mpr
        push_cast
        linarith
      split_ifs <;> omega
  · by_cases ht' : q' - ⌊q'⌋ = 1 / 2
    · rw [if_neg ht, if_pos ht']
      have hqq' : q < q' := by
        rcases lt_or_eq_of_le h with h1 | h1
        · exact h1
        · exact absurd (h1 ▸ ht') ht
      have h1 : round q ≤ ⌊q'⌋ := by
        rw [round_eq]
        have hq' : q' = ⌊q'⌋ + 1 / 2 := by linarith
        have : q + 1 / 2 < (⌊q'⌋ + 1 : ℚ) := by
          rw [hq'] at hqq'
          linarith
        have := Int.floor_lt.mpr
          (by push_cast; linarith : q + 1 / 2 < ((⌊q'⌋ + 1 : ℤ) : ℚ))
        omega
      split_ifs <;> omega
    · rw [if_neg ht, if_neg ht']
      rw [round_eq, round_eq]
      exact Int.floor_mono (by linarith)

lemma abs_roundHalfEven_sub (q : ℚ) : |(roundHalfEven q : ℚ) - q| ≤ 1 / 2 := by
  unfold roundHalfEven
  by_cases ht : q - ⌊q⌋ = 1 / 2
  · split_ifs with hpar
    · rw [abs_le]
      constructor <;> linarith
    · rw [abs_le]
      push_cast
      constructor <;> linarith
  · rw [if_neg ht]
    rw [abs_sub_comm]
    exact abs_sub_round q

lemma round10_mono {q q' : ℚ} (h : q ≤ q') : round10 q ≤ round10 q' := by
  unfold round10
  have h1 : (roundHalfEven (q * 10 ^ 10) : ℚ) ≤ (roundHalfEven (q' * 10 ^ 10) : ℚ) := by
    exact_mod_cast roundHalfEven_le_of_le
      (mul_le_mul_of_nonneg_right h (by norm_num))
  exact (div_le_div_right (by norm_num)).mpr h1

lemma abs_round10_sub (q : ℚ) : |round10 q - q| ≤ 1 / (2 * 10 ^ 10) := by
  have h1 := abs_roundHalfEven_sub (q * 10 ^ 10)
  have h2 : round10 q - q =
      ((roundHalfEven (q * 10 ^ 10) : ℚ) - q * 10 ^ 10) / 10 ^ 10 := by
    unfold round10
    ring
  rw [h2, abs_div, abs_of_pos (by norm_num : (0 : ℚ) < 10 ^ 10)]
  rw [div_le_div_iff (by norm_num) (by norm_num)]
  have h3 := mul_le_mul_of_nonneg_right h1
    (by norm_num : (0 : ℚ) ≤ 2 * 10 ^ 10)
  norm_num at h3 ⊢
  linarith

lemma abs_sub_le_of_round10_eq {a b : ℚ} (h : round10 a = round10 b) :
    |a - b| ≤ 1 / 10 ^ 10 := by
  have ha := abs_round10_sub a
  have hb := abs_round10_sub b
  rw [h] at ha
  calc |a - b| = |(-(round10 b - a)) + (round10 b - b)| := by ring_nf
    _ ≤ |(-(round10 b - a))| + |round10 b - b| := abs_add _ _
    _ ≤ 1 / (2 * 10 ^ 10) + 1 / (2 * 10 ^ 10) := by
        rw [abs_neg]
        exact add_le_add ha hb
    _ = 1 / 10 ^ 10 := by norm_num

lemma lrOrder_antisymm (f : ℕ → ℚ) {i j : ℕ}
    (hij : lrOrder f i j) (hji : lrOrder f j i) : i = j := by
  rcases hij with h1 | ⟨h1, h1'⟩ <;> rcases hji with h2 | ⟨h2, h2'⟩
  · exact absurd (h1.trans h2) (lt_irrefl _)
  · exact absurd h1 (by rw [h2]; exact lt_irrefl _)
  · exact absurd h2 (by rw [h1]; exact lt_irrefl _)
  · omega

lemma sortIndices_sorted_keyOrder (key : ℕ → ℚ × ℤ) (m : ℕ) :
    (sortIndices key m).Sorted (fun i j => keyOrder key j i) := by
  unfold sortIndices
  rw [List.Sorted]
  rw [List.pairwise_reverse]
  exact List.sorted_insertionSort _ _

lemma sortIndices_sorted_lr (floats : List ℚ) (ints : List ℤ) (m : ℕ) :
    (sortIndices (keyC floats ints) m).Sorted (lrOrder (fracPart floats ints)) := by
  apply List.Pairwise.imp ?_ (sortIndices_sorted_keyOrder (keyC floats ints) m)
  intro i j hji
  rcases hji with h1 | ⟨h1, h1'⟩
  · exact Or.inl h1
  · refine Or.inr ⟨h1.symm, ?_⟩
    simp only [keyC] at h1'
    omega

lemma sortIndices_sorted_lr_nb (floats : List ℚ) (ints : List ℤ) (m : ℕ) :
    (sortIndices (keyNB floats ints) m).Sorted
      (lrOrder (fun i => round10 (fracPart floats ints i))) := by
  apply List.Pairwise.imp ?_ (sortIndices_sorted_keyOrder (keyNB floats ints) m)
  intro i j hji
  rcases hji with h1 | ⟨h1, h1'⟩
  · exact Or.inl h1
  · refine Or.inr ⟨h1.symm, ?_⟩
    simp only [keyNB] at h1'
    omega

/-- Under the separation hypothesis the rounded order implies the exact
order. -/
lemma sortIndices_sorted_lr_of_sep (floats : List ℚ) (ints : List ℤ) (m : ℕ)
    (hsep : ∀ i < m, ∀ j < m,
      fracPart floats ints i ≠ fracPart floats ints j →
      1 / 10 ^ 10 < |fracPart floats ints i - fracPart floats ints j|) :
    (sortIndices (keyNB floats ints) m).Sorted (lrOrder (fracPart floats ints)) := by
  have hmem : ∀ k ∈ sortIndices (keyNB floats ints) m, k < m :=
    sortIndices_mem_lt _ m
  apply List.Pairwise.imp_of_mem ?_ (sortIndices_sorted_lr_nb floats ints m)
  intro i j hi hj hij
  have him := hmem i hi
  have hjm := hmem j hj
  unfold lrOrder at hij ⊢
  dsimp only at hij
  by_cases heq : fracPart floats ints i = fracPart floats ints j
  · rcases hij with h1 | ⟨_, h1'⟩
    · rw [heq] at h1
      exact absurd h1 (lt_irrefl _)
    · exact Or.inr ⟨heq, h1'⟩
  · have hfar := hsep i him j hjm heq
    rcases hij with h1 | ⟨h1, _⟩
    · left
      by_contra hc
      push_neg at hc
      have hlt : fracPart floats ints i < fracPart floats ints j :=
        lt_of_le_of_ne hc heq
      exact absurd (round10_mono hlt.le) (not_le.mpr h1)
    · exfalso
      have hclose := abs_sub_le_of_round10_eq h1
      have : (1 : ℚ) / 10 ^ 10 < 1 / 10 ^ 10 := lt_of_lt_of_le hfar hclose
      exact absurd this (lt_irrefl _)

lemma sortIndices_eq_of_sep (floats : List ℚ) (ints : List ℤ) (m : ℕ)
    (hsep : ∀ i < m, ∀ j < m,
      fracPart floats ints i ≠ fracPart floats ints j →
      1 / 10 ^ 10 < |fracPart floats ints i - fracPart floats ints j|) :
    sortIndices (keyNB floats ints) m = sortIndices (keyC floats ints) m := by
  refine @List.eq_of_perm_of_sorted ℕ (lrOrder (fracPart floats ints))
    ⟨fun a b => lrOrder_antisymm _⟩ _ _ ?_ ?_ ?_
  · exact (sortIndices_perm _ _).trans (sortIndices_perm _ _).symm
  · exact sortIndices_sorted_lr_of_sep floats ints m hsep
  · exact sortIndices_sorted_lr floats ints m

/-! ## Piecewise-linearity of the aggregate and exact-sum toolkit -/

lemma getD_TXD (T D : List ℚ) (z : ℚ) (i : ℕ) :
    (T ++ z :: D).getD i 0 =
      if i < T.length then T.getD i 0
      else if i = T.length then z
      else D.getD (i - T.length - 1) 0 := by
  rw [List.getD_eq_getElem?_getD]
  by_cases h1 : i < T.length
  · rw [if_pos h1, List.getElem?_append_left h1, ← List.getD_eq_getElem?_getD]
  · rw [if_neg h1]
    rw [List.getElem?_append_right (by omega)]
    by_cases h2 : i = T.length
    · rw [if_pos h2]
      rw [show i - T.length = 0 from by omega]
      simp
    · rw [if_neg h2]
      rw [show i - T.length = (i - T.length - 1) + 1 from by omega]
      rw [List.getElem?_cons_succ, ← List.getD_eq_getElem?_getD]
      simp only [Nat.add_sub_cancel]

lemma medTXD_diff (T D : List ℚ) (x y : ℚ) :
    medList (T ++ x :: D) - medList (T ++ y :: D) = coef T D * (x - y) := by
  have hlen : ∀ z : ℚ, (T ++ z :: D).length = T.length + D.length + 1 := by
    intro z
    simp
    omega
  unfold medList coef
  rw [hlen x, hlen y]
  dsimp only
  simp only [getD_TXD]
  split_ifs <;> first | ring1 | (exfalso; omega)

lemma sorted_dropWhile_gt (c : ℚ) :
    ∀ l : List ℚ, l.Sorted (· ≤ ·) →
      ∀ b ∈ l.dropWhile (fun a => a ≤ c), c < b := by
  intro l
  induction l with
  | nil => intro _ b hb; simp [List.dropWhile] at hb
  | cons h t ih =>
    intro hs b hb
    rw [List.dropWhile_cons] at hb
    by_cases hc : h ≤ c
    · rw [if_pos (by simpa using hc)] at hb
      exact ih (List.sorted_cons.mp hs).2 b hb
    · rw [if_neg (by simpa using hc)] at hb
      rcases List.mem_cons.mp hb with h1 | h1
      · subst h1
        exact lt_of_not_le hc
      · have := (List.sorted_cons.mp hs).1 b h1
        have := lt_of_not_le hc
        linarith

lemma sortedBase_sorted (votes : List ℤ) : (sortedBase votes).Sorted (· ≤ ·) :=
  List.sorted_insertionSort _ _

lemma sortedArr_eq_TXD (votes : List ℤ) (xl xh x : ℚ)
    (hgap : ∀ b ∈ sortedBase votes, b ≤ xl ∨ xh ≤ b)
    (hx1 : xl ≤ x) (hx2 : x ≤ xh) :
    ((votes.map (fun v : ℤ => (v : ℚ))) ++ [0, x]).insertionSort (· ≤ ·) =
      (sortedBase votes).takeWhile (fun a => a ≤ xl) ++
        x :: (sortedBase votes).dropWhile (fun a => a ≤ xl) := by
  set base := sortedBase votes with hbase
  set T := base.takeWhile (fun a => a ≤ xl) with hT
  set D := base.dropWhile (fun a => a ≤ xl) with hD
  have hTD : T ++ D = base := List.takeWhile_append_dropWhile _ _
  have hTle : ∀ t ∈ T, t ≤ xl := by
    intro t ht
    have := List.mem_takeWhile_imp ht
    simpa using this
  have hDge : ∀ d ∈ D, xh ≤ d := by
    intro d hd
    have hdgt : xl < d := sorted_dropWhile_gt xl base (sortedBase_sorted votes) d hd
    have hdbase : d ∈ base := (List.dropWhile_sublist _).subset hd
    rcases hgap d hdbase with h1 | h1
    · linarith
    · exact h1
  have hTsorted : T.Sorted (· ≤ ·) :=
    (sortedBase_sorted votes).sublist (List.takeWhile_sublist _)
  have hDsorted : D.Sorted (· ≤ ·) :=
    (sortedBase_sorted votes).sublist (List.dropWhile_sublist _)
  apply List.eq_of_perm_of_sorted ?_ (List.sorted_insertionSort _ _)
  · -- RHS sorted
    rw [List.Sorted, List.pairwise_append]
    refine ⟨hTsorted, ?_, ?_⟩
    · rw [List.pairwise_cons]
      refine ⟨fun d hd => le_trans hx2 (hDge d hd), hDsorted⟩
    · intro t ht z hz
      rcases List.mem_cons.mp hz with h1 | h1
      · subst h1
        exact le_trans (hTle t ht) hx1
      · exact le_trans (hTle t ht) (le_trans hx1 (le_trans hx2 (hDge z h1)))
  · -- perm
    refine (List.perm_insertionSort _ _).trans ?_
    have h1 : ((votes.map (fun v : ℤ => (v : ℚ))) ++ [0, x]).Perm
        (x :: ((votes.map (fun v : ℤ => (v : ℚ))) ++ [0])) := by
      have he : (votes.map (fun v : ℤ => (v : ℚ))) ++ [0, x] =
          ((votes.map (fun v : ℤ => (v : ℚ))) ++ [0]) ++ [x] := by simp
      rw [he]
      exact List.perm_append_singleton x _
    refine h1.trans ?_
    have h2 : ((votes.map (fun v : ℤ => (v : ℚ))) ++ [0]).Perm base :=
      (List.perm_insertionSort _ _).symm
    refine (h2.cons x).trans ?_
    rw [← hTD]
    exact List.perm_middle.symm

lemma gsa_diff_linear (votes : List ℤ) (xl xh x y : ℚ)
    (hgap : ∀ b ∈ sortedBase votes, b ≤ xl ∨ xh ≤ b)
    (hx1 : xl ≤ x) (hx2 : x ≤ xh) (hy1 : xl ≤ y) (hy2 : y ≤ xh) :
    get_subject_allocation votes x - get_subject_allocation votes y =
      subjectCoef votes xl * (x - y) := by
  rw [get_subject_allocation_eq_medList, get_subject_allocation_eq_medList]
  rw [show ((votes.map (fun v : ℤ => (v : ℚ))) ++ [0, x]).insertionSort (· ≤ ·) =
      (sortedBase votes).takeWhile (fun a => a ≤ xl) ++
        x :: (sortedBase votes).dropWhile (fun a => a ≤ xl) from
    sortedArr_eq_TXD votes xl xh x hgap hx1 hx2]
  rw [show ((votes.map (fun v : ℤ => (v : ℚ))) ++ [0, y]).insertionSort (· ≤ ·) =
      (sortedBase votes).takeWhile (fun a => a ≤ xl) ++
        y :: (sortedBase votes).dropWhile (fun a => a ≤ xl) from
    sortedArr_eq_TXD votes xl xh y hgap hy1 hy2]
  exact medTXD_diff _ _ x y

lemma coef_exists_nat (T D : List ℚ) : ∃ k : ℕ, k ≤ 2 ∧ coef T D = (k : ℚ) / 2 := by
  unfold coef
  dsimp only
  split_ifs with h1 h2 h3 h4 h5
  · exact ⟨2, by omega, by norm_num⟩
  · exact ⟨0, by omega, by norm_num⟩
  · exact ⟨2, by omega, by norm_num⟩
  · exact ⟨1, by omega, by norm_num⟩
  · exact ⟨1, by omega, by norm_num⟩
  · exact ⟨0, by omega, by norm_num⟩

lemma coef_nonneg (T D : List ℚ) : 0 ≤ coef T D := by
  obtain ⟨k, _, hk⟩ := coef_exists_nat T D
  rw [hk]
  positivity

lemma subjectCoef_nonneg (votes : List ℤ) (xl : ℚ) : 0 ≤ subjectCoef votes xl :=
  coef_nonneg _ _

lemma get_total_and_slope_snd (vps : List (List ℤ)) (x : ℚ) :
    (get_total_and_slope vps x).2 =
      (vps.map (fun votes =>
        if get_subject_allocation votes x < get_subject_allocation votes (x + eps)
        then (get_subject_allocation votes (x + eps) - get_subject_allocation votes x) / eps
        else 0)).sum := by
  suffices h : ∀ acc : ℚ × ℚ,
      (vps.foldl
        (fun acc votes =>
          let v_now := get_subject_allocation votes x
          let v_next := get_subject_allocation votes (x + eps)
          (acc.1 + v_now,
            if v_now < v_next then acc.2 + (v_next - v_now) / eps else acc.2))
        acc).2 = acc.2 + (vps.map (fun votes =>
          if get_subject_allocation votes x < get_subject_allocation votes (x + eps)
          then (get_subject_allocation votes (x + eps) - get_subject_allocation votes x) / eps
          else 0)).sum by
    have := h (0, 0)
    unfold get_total_and_slope
    rw [this]
    ring
  induction vps with
  | nil => intro acc; simp
  | cons v t ih =>
    intro acc
    rw [List.foldl_cons, ih]
    dsimp only
    rw [List.map_cons, List.sum_cons]
    by_cases hlt : get_subject_allocation v x < get_subject_allocation v (x + eps)
    · rw [if_pos hlt, if_pos hlt]
      ring
    · rw [if_neg hlt, if_neg hlt]
      ring

lemma sum_map_sub {α : Type} (l : List α) (f g : α → ℚ) :
    (l.map (fun v => f v - g v)).sum = (l.map f).sum - (l.map g).sum := by
  induction l with
  | nil => simp
  | cons a t ih =>
    simp only [List.map_cons, List.sum_cons, ih]
    ring

lemma sum_map_mul_const {α : Type} (l : List α) (f : α → ℚ) (c : ℚ) :
    (l.map (fun v => f v * c)).sum = (l.map f).sum * c := by
  induction l with
  | nil => simp
  | cons a t ih =>
    simp only [List.map_cons, List.sum_cons, ih]
    ring

lemma eps_pos : (0 : ℚ) < eps := by norm_num [eps]

lemma slope_eq_sum_coef (vps : List (List ℤ)) (xl xh : ℚ)
    (hgap : ∀ votes ∈ vps, ∀ b ∈ sortedBase votes, b ≤ xl ∨ xh ≤ b)
    (heps : xl + eps ≤ xh) :
    (get_total_and_slope vps xl).2 = (vps.map (fun v => subjectCoef v xl)).sum := by
  rw [get_total_and_slope_snd]
  congr 1
  apply List.map_congr_left
  intro votes hmem
  have hxh : xl ≤ xh := by linarith [eps_pos]
  have hdiff := gsa_diff_linear votes xl xh (xl + eps) xl (hgap votes hmem)
    (by linarith [eps_pos]) heps le_rfl hxh
  by_cases hlt : get_subject_allocation votes xl < get_subject_allocation votes (xl + eps)
  · rw [if_pos hlt, hdiff]
    rw [show xl + eps - xl = eps from by ring, mul_div_assoc,
      div_self (ne_of_gt eps_pos), mul_one]
  · rw [if_neg hlt]
    have h1 : get_subject_allocation votes (xl + eps) -
        get_subject_allocation votes xl ≤ 0 := by
      push_neg at hlt
      linarith
    rw [hdiff] at h1
    have h2 : subjectCoef votes xl ≤ 0 := by
      by_contra hc
      push_neg at hc
      nlinarith [eps_pos]
    have h3 := subjectCoef_nonneg votes xl
    have : subjectCoef votes xl = 0 := le_antisymm h2 h3
    rw [this]

lemma total_diff_linear (vps : List (List ℤ)) (xl xh x : ℚ)
    (hgap : ∀ votes ∈ vps, ∀ b ∈ sortedBase votes, b ≤ xl ∨ xh ≤ b)
    (heps : xl + eps ≤ xh) (hx1 : xl ≤ x) (hx2 : x ≤ xh) :
    (get_total_and_slope vps x).1 - (get_total_and_slope vps xl).1 =
      (get_total_and_slope vps xl).2 * (x - xl) := by
  rw [get_total_and_slope_fst, get_total_and_slope_fst]
  rw [← sum_map_sub]
  rw [show vps.map (fun v => get_subject_allocation v x - get_subject_allocation v xl) =
      vps.map (fun v => subjectCoef v xl * (x - xl)) from
    List.map_congr_left (fun votes hmem =>
      gsa_diff_linear votes xl xh x xl (hgap votes hmem) hx1 hx2 le_rfl
        (by linarith [eps_pos]))]
  rw [sum_map_mul_const]
  rw [slope_eq_sum_coef vps xl xh hgap heps]

lemma arr_elements_int (votes : List ℤ) (y : ℤ) :
    ∀ a ∈ ((votes.map (fun v : ℤ => (v : ℚ))) ++ [0, (y : ℚ)]).insertionSort (· ≤ ·),
      ∃ z : ℤ, a = (z : ℚ) := by
  intro a ha
  rw [List.mem_insertionSort] at ha
  rcases List.mem_append.mp ha with h | h
  · obtain ⟨w, _, hw⟩ := List.mem_map.mp h
    exact ⟨w, hw.symm⟩
  · rcases List.mem_cons.mp h with h1 | h1
    · exact ⟨0, by rw [h1]; norm_num⟩
    · rcases List.mem_cons.mp h1 with h2 | h2
      · exact ⟨y, h2⟩
      · exact absurd h2 (by simp)

lemma getD_int {arr : List ℚ} (h : ∀ a ∈ arr, ∃ z : ℤ, a = (z : ℚ)) (i : ℕ) :
    ∃ z : ℤ, arr.getD i 0 = (z : ℚ) := by
  by_cases hi : i < arr.length
  · rw [List.getD_eq_getElem _ _ hi]
    exact h _ (List.getElem_mem hi)
  · rw [List.getD_eq_default _ _ (by omega)]
    exact ⟨0, by norm_num⟩

lemma medList_half_int {arr : List ℚ} (h : ∀ a ∈ arr, ∃ z : ℤ, a = (z : ℚ)) :
    ∃ k : ℤ, medList arr = (k : ℚ) / 2 := by
  unfold medList
  split_ifs
  · obtain ⟨z, hz⟩ := getD_int h (arr.length / 2)
    exact ⟨2 * z, by rw [hz]; push_cast; ring⟩
  · obtain ⟨z1, hz1⟩ := getD_int h (arr.length / 2 - 1)
    obtain ⟨z2, hz2⟩ := getD_int h (arr.length / 2)
    exact ⟨z1 + z2, by rw [hz1, hz2]; push_cast; ring⟩

lemma gsa_half_int (votes : List ℤ) (y : ℤ) :
    ∃ k : ℤ, get_subject_allocation votes (y : ℚ) = (k : ℚ) / 2 := by
  rw [get_subject_allocation_eq_medList]
  exact medList_half_int (arr_elements_int votes y)

lemma sum_half_int : ∀ l : List ℚ, (∀ a ∈ l, ∃ k : ℤ, a = (k : ℚ) / 2) →
    ∃ K : ℤ, l.sum = (K : ℚ) / 2 := by
  intro l
  induction l with
  | nil => intro _; exact ⟨0, by simp⟩
  | cons a t ih =>
    intro h
    obtain ⟨k, hk⟩ := h a (by simp)
    obtain ⟨K, hK⟩ := ih (fun b hb => h b (by simp [hb]))
    refine ⟨k + K, ?_⟩
    rw [List.sum_cons, hk, hK]
    push_cast
    ring

lemma total_half_int (vps : List (List ℤ)) (y : ℤ) :
    ∃ K : ℤ, (get_total_and_slope vps (y : ℚ)).1 = (K : ℚ) / 2 := by
  rw [get_total_and_slope_fst]
  apply sum_half_int
  intro a ha
  obtain ⟨votes, _, hva⟩ := List.mem_map.mp ha
  rw [← hva]
  exact gsa_half_int votes y

lemma sum_half_nat : ∀ l : List ℚ, (∀ a ∈ l, ∃ k : ℕ, a = (k : ℚ) / 2) →
    ∃ K : ℕ, l.sum = (K : ℚ) / 2 := by
  intro l
  induction l with
  | nil => intro _; exact ⟨0, by simp⟩
  | cons a t ih =>
    intro h
    obtain ⟨k, hk⟩ := h a (by simp)
    obtain ⟨K, hK⟩ := ih (fun b hb => h b (by simp [hb]))
    refine ⟨k + K, ?_⟩
    rw [List.sum_cons, hk, hK]
    push_cast
    ring

lemma slope_half_nat (vps : List (List ℤ)) (xl xh : ℚ)
    (hgap : ∀ votes ∈ vps, ∀ b ∈ sortedBase votes, b ≤ xl ∨ xh ≤ b)
    (heps : xl + eps ≤ xh) :
    ∃ K : ℕ, (get_total_and_slope vps xl).2 = (K : ℚ) / 2 := by
  rw [slope_eq_sum_coef vps xl xh hgap heps]
  apply sum_half_nat
  intro a ha
  obtain ⟨votes, _, hva⟩ := List.mem_map.mp ha
  obtain ⟨k, _, hk⟩ := coef_exists_nat
    ((sortedBase votes).takeWhile (fun b => b ≤ xl))
    ((sortedBase votes).dropWhile (fun b => b ≤ xl))
  exact ⟨k, by rw [← hva]; exact hk⟩

lemma eps_le_one : eps ≤ (1 : ℚ) := by norm_num [eps]

lemma bracket_total_le (vps : List (List ℤ)) (B : ℤ) (xl xh : ℤ) (hlt : xl < xh)
    (hgap : ∀ votes ∈ vps, ∀ b ∈ sortedBase votes, b ≤ (xl : ℚ) ∨ (xh : ℚ) ≤ b)
    (hcond : bracketCond (get_total_and_slope vps) (B : ℚ) (xl, xh)) :
    (get_total_and_slope vps
      (segmentValue (get_total_and_slope vps) (B : ℚ) (xl : ℚ))).1 ≤ (B : ℚ) := by
  set ts := get_total_and_slope vps with hts
  obtain ⟨hc1, hc2⟩ := hcond
  dsimp only at hc1 hc2
  have heps : (xl : ℚ) + eps ≤ (xh : ℚ) := by
    have h1 : (xl : ℚ) + 1 ≤ (xh : ℚ) := by exact_mod_cast hlt
    linarith [eps_le_one]
  unfold segmentValue
  dsimp only
  by_cases hS : segTol < (ts (xl : ℚ)).2
  · rw [if_pos hS]
    obtain ⟨K, hK⟩ := slope_half_nat vps (xl : ℚ) (xh : ℚ) hgap heps
    rw [← hts] at hK
    have hK1 : 1 ≤ K := by
      by_contra hc
      push_neg at hc
      interval_cases K
      · rw [hK] at hS
        norm_num [segTol] at hS
    have hSpos : 0 < (ts (xl : ℚ)).2 := by
      rw [hK]
      positivity
    have hBle : (B : ℚ) ≤ (ts (xh : ℚ)).1 := by
      obtain ⟨Kh, hKh⟩ := total_half_int vps xh
      rw [← hts] at hKh
      rw [hKh] at hc2 ⊢
      have hseg : segTol = 1 / 10 ^ 9 := rfl
      rw [hseg] at hc2
      have h3 : (2 * B : ℤ) < Kh + 1 := by
        have h2 : (2 * B : ℚ) < (Kh : ℚ) + 1 := by linarith
        exact_mod_cast h2
      have h5 : (2 * B : ℚ) ≤ (Kh : ℚ) := by
        exact_mod_cast (by omega : (2 * B : ℤ) ≤ Kh)
      linarith
    have hx1 : (xl : ℚ) ≤ (xl : ℚ) + ((B : ℚ) - (ts (xl : ℚ)).1) / (ts (xl : ℚ)).2 := by
      have : 0 ≤ ((B : ℚ) - (ts (xl : ℚ)).1) / (ts (xl : ℚ)).2 :=
        div_nonneg (by linarith) (le_of_lt hSpos)
      linarith
    have hlinh := total_diff_linear vps (xl : ℚ) (xh : ℚ) (xh : ℚ) hgap heps
      (by linarith [eps_pos]) le_rfl
    rw [← hts] at hlinh
    have hx2 : (xl : ℚ) + ((B : ℚ) - (ts (xl : ℚ)).1) / (ts (xl : ℚ)).2 ≤ (xh : ℚ) := by
      rw [← le_sub_iff_add_le']
      rw [div_le_iff hSpos]
      have : (ts (xh : ℚ)).1 - (ts (xl : ℚ)).1 = (ts (xl : ℚ)).2 * ((xh : ℚ) - (xl : ℚ)) :=
        hlinh
      nlinarith
    have hlin := total_diff_linear vps (xl : ℚ) (xh : ℚ)
      ((xl : ℚ) + ((B : ℚ) - (ts (xl : ℚ)).1) / (ts (xl : ℚ)).2) hgap heps hx1 hx2
    rw [← hts] at hlin
    have : (ts ((xl : ℚ) + ((B : ℚ) - (ts (xl : ℚ)).1) / (ts (xl : ℚ)).2)).1 = (B : ℚ) := by
      have hsimp : (ts (xl : ℚ)).2 *
          ((xl : ℚ) + ((B : ℚ) - (ts (xl : ℚ)).1) / (ts (xl : ℚ)).2 - (xl : ℚ)) =
          (B : ℚ) - (ts (xl : ℚ)).1 := by
        rw [add_sub_cancel_left]
        rw [mul_div_cancel₀ _ (ne_of_gt hSpos)]
      linarith [hlin, hsimp]
    linarith [this]
  · rw [if_neg hS]
    exact hc1

lemma subjectCoef_zero_of_all_le (votes : List ℤ) (M : ℚ)
    (hall : ∀ b ∈ sortedBase votes, b ≤ M) (hlen : 2 ≤ (sortedBase votes).length) :
    subjectCoef votes M = 0 := by
  unfold subjectCoef
  have hT : (sortedBase votes).takeWhile (fun a => a ≤ M) = sortedBase votes := by
    rw [List.takeWhile_eq_self_iff]
    intro x hx
    simpa using hall x hx
  have hD : (sortedBase votes).dropWhile (fun a => a ≤ M) = [] := by
    rw [List.dropWhile_eq_nil_iff]
    intro x hx
    simpa using hall x hx
  rw [hT, hD]
  unfold coef
  dsimp only
  simp only [List.length_nil]
  split_ifs <;> first | rfl | (exfalso; omega) | norm_num

lemma gsa_const_beyond (votes : List ℤ) (M x x' : ℚ)
    (hall : ∀ b ∈ sortedBase votes, b ≤ M) (hlen : 2 ≤ (sortedBase votes).length)
    (hx : M ≤ x) (hx' : M ≤ x') :
    get_subject_allocation votes x = get_subject_allocation votes x' := by
  have hgap : ∀ b ∈ sortedBase votes, b ≤ M ∨ (max x x' : ℚ) ≤ b :=
    fun b hb => Or.inl (hall b hb)
  have hdiff := gsa_diff_linear votes M (max x x') x x' hgap hx (le_max_left _ _)
    hx' (le_max_right _ _)
  rw [subjectCoef_zero_of_all_le votes M hall hlen] at hdiff
  have : get_subject_allocation votes x - get_subject_allocation votes x' = 0 := by
    rw [hdiff]; ring
  linarith

lemma sortedBase_length (votes : List ℤ) :
    (sortedBase votes).length = votes.length + 1 := by
  unfold sortedBase
  rw [List.length_insertionSort]
  simp

lemma slope_zero_beyond (vps : List (List ℤ)) (M : ℚ)
    (hall : ∀ votes ∈ vps, ∀ b ∈ sortedBase votes, b ≤ M)
    (hlen : ∀ votes ∈ vps, 1 ≤ votes.length) :
    (get_total_and_slope vps M).2 = 0 := by
  rw [get_total_and_slope_snd]
  apply List.sum_eq_zero
  intro x hx
  obtain ⟨votes, hmem, hvx⟩ := List.mem_map.mp hx
  have hlen2 : 2 ≤ (sortedBase votes).length := by
    rw [sortedBase_length]
    have := hlen votes hmem
    omega
  have hconst := gsa_const_beyond votes M M (M + eps) (hall votes hmem) hlen2
    le_rfl (by linarith [eps_pos])
  rw [← hvx, if_neg (by rw [← hconst]; exact lt_irrefl _)]

lemma chain_total_le (vps : List (List ℤ)) (B : ℚ) :
    ∀ (rest : List ℤ) (a : ℤ),
      (∀ p ∈ consecPairs (a :: rest), ¬ bracketCond (get_total_and_slope vps) B p) →
      (get_total_and_slope vps (a : ℚ)).1 ≤ B →
      (get_total_and_slope vps (((a :: rest).getLastD 0 : ℤ) : ℚ)).1 ≤ B := by
  intro rest
  induction rest with
  | nil =>
    intro a _ ha
    simpa using ha
  | cons b rest' ih =>
    intro a hnc ha
    have hnab : ¬ bracketCond (get_total_and_slope vps) B (a, b) := by
      apply hnc
      simp [consecPairs]
    have hb : (get_total_and_slope vps (b : ℚ)).1 ≤ B := by
      unfold bracketCond at hnab
      push_neg at hnab
      have hseg : (0 : ℚ) < segTol := by norm_num [segTol]
      have := hnab ha
      dsimp only at this
      linarith
    have := ih b (fun p hp => hnc p (by simp [consecPairs, hp])) hb
    simpa using this

lemma scanSegments_some_inv (ts : ℚ → ℚ × ℚ) (B : ℚ) :
    ∀ (ps : List (ℤ × ℤ)) (t : ℚ), scanSegments ts B ps = some t →
      ∃ p ∈ ps, bracketCond ts B p ∧ t = segmentValue ts B (p.1 : ℚ) := by
  intro ps
  induction ps with
  | nil => intro t ht; exact absurd ht (by simp [scanSegments])
  | cons p rest ih =>
    intro t ht
    rw [scanSegments_cons] at ht
    by_cases hc : bracketCond ts B p
    · rw [if_pos hc] at ht
      exact ⟨p, by simp, hc, (Option.some_inj.mp ht).symm⟩
    · rw [if_neg hc] at ht
      obtain ⟨q, hq, hqc, hqt⟩ := ih t ht
      exact ⟨q, by simp [hq], hqc, hqt⟩

lemma scanSegments_none_inv (ts : ℚ → ℚ × ℚ) (B : ℚ) :
    ∀ (ps : List (ℤ × ℤ)), scanSegments ts B ps = none →
      ∀ p ∈ ps, ¬ bracketCond ts B p := by
  intro ps
  induction ps with
  | nil => intro _ p hp; exact absurd hp (by simp)
  | cons q rest ih =>
    intro hnone p hp
    rw [scanSegments_cons] at hnone
    by_cases hc : bracketCond ts B q
    · rw [if_pos hc] at hnone
      exact absurd hnone (by simp)
    · rw [if_neg hc] at hnone
      rcases List.mem_cons.mp hp with h1 | h1
      · rw [h1]; exact hc
      · exact ih hnone p h1

lemma sorted_breaks_strict (vps : List (List ℤ)) (i : ℕ)
    (hi : i + 1 < (sorted_breaks vps).length) :
    (sorted_breaks vps).getD i 0 < (sorted_breaks vps).getD (i + 1) 0 := by
  have hs := sorted_breaks_sorted vps
  have hn := sorted_breaks_nodup vps
  rw [List.getD_eq_getElem _ _ (by omega), List.getD_eq_getElem _ _ hi]
  apply lt_of_le_of_ne
  · exact List.pairwise_iff_getElem.mp hs i (i + 1) (by omega) hi (by omega)
  · intro hc
    have := (List.Nodup.getElem_inj_iff hn).mp hc
    omega

lemma breaks_gap (vps : List (List ℤ)) (i : ℕ)
    (hi : i + 1 < (sorted_breaks vps).length) (z : ℤ) (hz : z ∈ sorted_breaks vps) :
    z ≤ (sorted_breaks vps).getD i 0 ∨ (sorted_breaks vps).getD (i + 1) 0 ≤ z := by
  have hs := sorted_breaks_sorted vps
  obtain ⟨k, hk, hkz⟩ := List.getElem_of_mem hz
  by_cases hki : k ≤ i
  · left
    rw [List.getD_eq_getElem _ _ (by omega), ← hkz]
    rcases Nat.lt_or_ge k i with h | h
    · exact List.pairwise_iff_getElem.mp hs k i (by omega) (by omega) h
    · have : k = i := by omega
      subst this
      exact le_refl _
  · right
    rw [List.getD_eq_getElem _ _ hi, ← hkz]
    rcases Nat.lt_or_ge (i + 1) k with h | h
    · exact List.pairwise_iff_getElem.mp hs (i + 1) k hi (by omega) h
    · have : i + 1 = k := by omega
      subst this
      exact le_refl _

lemma sortedBase_mem_breaks (cv : List (List ℤ)) (votes : List ℤ)
    (hmem : votes ∈ votes_per_subject cv) (b : ℚ) (hb : b ∈ sortedBase votes) :
    ∃ z : ℤ, b = (z : ℚ) ∧ z ∈ sorted_breaks (votes_per_subject cv) := by
  unfold sortedBase at hb
  rw [List.mem_insertionSort] at hb
  rcases List.mem_append.mp hb with h | h
  · obtain ⟨w, hw, hwb⟩ := List.mem_map.mp h
    exact ⟨w, hwb.symm,
      (mem_sorted_breaks _ w).mpr (Or.inr ⟨votes, hmem, hw⟩)⟩
  · rcases List.mem_cons.mp h with h1 | h1
    · exact ⟨0, by rw [h1]; norm_num, (mem_sorted_breaks _ 0).mpr (Or.inl rfl)⟩
    · exact absurd h1 (by simp)

lemma sorted_getLastD_max : ∀ (l : List ℤ), l.Sorted (· ≤ ·) →
    ∀ z ∈ l, z ≤ l.getLastD 0 := by
  intro l
  induction l with
  | nil => intro _ z hz; exact absurd hz (by simp)
  | cons a t ih =>
    intro hs z hz
    cases t with
    | nil =>
      simp at hz
      simp [hz]
    | cons b t' =>
      rw [List.getLastD_cons]
      rcases List.mem_cons.mp hz with h1 | h1
      · subst h1
        have hab : z ≤ b := (List.sorted_cons.mp hs).1 b (by simp)
        have hb := ih (List.sorted_cons.mp hs).2 b (by simp)
        rw [List.getLastD_cons] at hb ⊢
        exact le_trans hab (by simpa using hb)
      · have := ih (List.sorted_cons.mp hs).2 z h1
        simpa using this

lemma votes_per_subject_col_length (cv : List (List ℤ)) :
    ∀ votes ∈ votes_per_subject cv, votes.length = cv.length := by
  intro votes hmem
  unfold votes_per_subject at hmem
  obtain ⟨i, _, hvi⟩ := List.mem_map.mp hmem
  rw [← hvi, List.length_insertionSort, List.length_map]

lemma sum_map_floor_tol_le : ∀ floats : List ℚ,
    (((floats.map floor_tol).sum : ℤ) : ℚ) ≤
      floats.sum + floats.length * floorTol := by
  intro floats
  induction floats with
  | nil => simp
  | cons f t ih =>
    rw [List.map_cons, List.sum_cons, List.sum_cons]
    push_cast
    have h1 : ((floor_tol f : ℤ) : ℚ) ≤ f + floorTol := by
      unfold floor_tol
      exact Int.floor_le _
    push_cast at ih
    rw [List.length_cons]
    push_cast
    have : (t.length : ℚ) * floorTol + floorTol = (t.length + 1) * floorTol := by ring
    linarith

lemma target_total_le (B : ℤ) (cv : List (List ℤ)) (hcv : cv ≠ [])
    (hnn : ∀ row ∈ cv, ∀ v ∈ row, 0 ≤ v)
    (hB : (get_total_and_slope (votes_per_subject cv) 0).1 ≤ (B : ℚ)) :
    (get_total_and_slope (votes_per_subject cv) (txC B cv)).1 ≤ (B : ℚ) := by
  set vps := votes_per_subject cv with hvps
  set ts := get_total_and_slope vps with hts
  set breaks := sorted_breaks vps with hbreaks
  have hvnn := votes_per_subject_nonneg cv hnn
  unfold txC
  rw [← hvps, ← hts, ← hbreaks]
  cases hscan : scanSegments ts (B : ℚ) (consecPairs breaks) with
  | some t =>
    unfold target_x
    rw [hscan]
    obtain ⟨p, hp, hcond, ht⟩ := scanSegments_some_inv ts (B : ℚ) _ t hscan
    obtain ⟨k, hk, hpk⟩ := List.getElem_of_mem hp
    have hk1 : k + 1 < breaks.length := by
      have := consecPairs_length breaks
      omega
    have hpeq : p = (breaks.getD k 0, breaks.getD (k + 1) 0) := by
      rw [← hpk, ← consecPairs_getD breaks k hk1]
      exact (List.getD_eq_getElem _ _ hk).symm
    have hlt : breaks.getD k 0 < breaks.getD (k + 1) 0 := sorted_breaks_strict vps k hk1
    have hgap : ∀ votes ∈ vps, ∀ b ∈ sortedBase votes,
        b ≤ ((breaks.getD k 0 : ℤ) : ℚ) ∨ ((breaks.getD (k + 1) 0 : ℤ) : ℚ) ≤ b := by
      intro votes hmem b hb
      obtain ⟨z, hbz, hzmem⟩ := sortedBase_mem_breaks cv votes (hvps ▸ hmem) b hb
      rcases breaks_gap vps k hk1 z (hbreaks ▸ hzmem) with h | h
      · left
        rw [hbz]
        exact_mod_cast h
      · right
        rw [hbz]
        exact_mod_cast h
    rw [ht, hpeq]
    have := bracket_total_le vps B (breaks.getD k 0) (breaks.getD (k + 1) 0) hlt hgap
      (by rw [hpeq] at hcond; exact hcond)
    rw [← hts] at this
    exact this
  | none =>
    unfold target_x
    rw [hscan]
    set M := breaks.getLastD 0 with hM
    have hall : ∀ votes ∈ vps, ∀ b ∈ sortedBase votes, b ≤ ((M : ℤ) : ℚ) := by
      intro votes hmem b hb
      obtain ⟨z, hbz, hzmem⟩ := sortedBase_mem_breaks cv votes (hvps ▸ hmem) b hb
      have := sorted_getLastD_max breaks (hbreaks ▸ sorted_breaks_sorted vps) z
        (hbreaks ▸ hzmem)
      rw [hbz]
      exact_mod_cast this
    have hcollen : ∀ votes ∈ vps, 1 ≤ votes.length := by
      intro votes hmem
      rw [votes_per_subject_col_length cv votes (hvps ▸ hmem)]
      have : cv ≠ [] := hcv
      cases cv with
      | nil => exact absurd rfl this
      | cons _ _ => simp
    have hslope0 : (ts ((M : ℤ) : ℚ)).2 = 0 := by
      rw [hts]
      exact slope_zero_beyond vps _ hall hcollen
    have hsv : segmentValue ts (B : ℚ) ((M : ℤ) : ℚ) = ((M : ℤ) : ℚ) := by
      unfold segmentValue
      dsimp only
      rw [hslope0, if_neg (by norm_num [segTol])]
    rw [hsv]
    have hnone := scanSegments_none_inv ts (B : ℚ) _ hscan
    cases hbr : breaks with
    | nil => exact absurd hbr (hbreaks ▸ sorted_breaks_ne_nil vps)
    | cons a rest =>
      have ha0 : a = 0 := by
        have := sorted_breaks_head_zero vps hvnn
        rw [← hbreaks, hbr] at this
        simpa using this
      have htotala : (ts (a : ℚ)).1 ≤ (B : ℚ) := by
        rw [ha0]
        push_cast
        exact hB
      have := chain_total_le vps (B : ℚ) rest a
        (fun p hp => hnone p (by rw [hbr]; exact hp)) htotala
      rw [← hts] at this
      rw [hM, hbr]
      exact this

lemma intsC_sum_le (B : ℤ) (cv : List (List ℤ))
    (hm : ((numSubjects cv : ℚ)) * floorTol < 1)
    (hfle : (get_total_and_slope (votes_per_subject cv) (txC B cv)).1 ≤ (B : ℚ)) :
    (intsC B cv).sum ≤ B := by
  have hfsum : (floatsC B cv).sum =
      (get_total_and_slope (votes_per_subject cv) (txC B cv)).1 := by
    unfold floatsC floatsAt
    rw [get_total_and_slope_fst]
  have hlen : (floatsC B cv).length = numSubjects cv := by
    unfold floatsC
    exact floatsAt_length cv _
  have h1 := sum_map_floor_tol_le (floatsC B cv)
  rw [hfsum, hlen] at h1
  have h2 : (((intsC B cv).sum : ℤ) : ℚ) < (B : ℚ) + 1 := by
    unfold intsC intsOf
    calc (((floatsC B cv).map floor_tol).sum : ℚ)
        ≤ _ := h1
      _ < (B : ℚ) + 1 := by linarith
  have h3 : (intsC B cv).sum < B + 1 := by exact_mod_cast h2
  omega

/-! ## The `round(frac, 10)` tie-break counterexample instance -/

lemma monsterK_pos : 0 < monsterK := by unfold monsterK; norm_num

lemma getD_replicate {α : Type} (a d : α) :
    ∀ (n i : ℕ), i < n → (List.replicate n a).getD i d = a := by
  intro n
  induction n with
  | zero => intro i hi; omega
  | succ n ih =>
    intro i hi
    cases i with
    | zero => rfl
    | succ i => exact ih i (by omega)

lemma monster_ne_nil : monsterCV ≠ [] := by
  unfold monsterCV
  exact List.cons_ne_nil _ _

lemma monster_map0 :
    monsterCV.map (fun c => c.getD 0 0) = ([2, 2, 2] : List ℤ) := rfl

lemma monster_sort0 :
    (([2, 2, 2] : List ℤ)).insertionSort (· ≤ ·) = [2, 2, 2] := by
  with_unfolding_all rfl

set_option maxRecDepth 6000 in
lemma monster_gsa1 :
    get_subject_allocation ([2, 2, 2] : List ℤ) (1 / (monsterK : ℚ)) = 2 := by
  with_unfolding_all rfl

set_option maxRecDepth 6000 in
lemma monster_gsa2 :
    get_subject_allocation ([0, 1, 1] : List ℤ) (1 / (monsterK : ℚ)) =
      1 / (monsterK : ℚ) := by
  with_unfolding_all rfl

set_option maxRecDepth 6000 in
lemma monster_round10 : round10 (1 / (monsterK : ℚ)) = 0 := by
  with_unfolding_all rfl

set_option maxRecDepth 6000 in
lemma monster_floor_tol : floor_tol (1 / (monsterK : ℚ)) = 0 := by
  with_unfolding_all rfl

lemma map_cons_replicate {α β : Type} (g : α → β) (a b : α) (n : ℕ) :
    (a :: List.replicate n b).map g = g a :: List.replicate n (g b) := by
  rw [List.map_cons, List.map_replicate]

lemma monster_sortS :
    (([0, 1, 1] : List ℤ)).insertionSort (· ≤ ·) = [0, 1, 1] := by
  with_unfolding_all rfl

lemma monster_mapS (i : ℕ) (hi : i < monsterK) :
    monsterCV.map (fun c => c.getD (i + 1) 0) = ([0, 1, 1] : List ℤ) := by
  simp only [monsterCV, List.map_cons, List.map_nil]
  rw [List.getD_cons_succ, List.getD_cons_succ,
    getD_replicate _ _ _ _ hi, getD_replicate _ _ _ _ hi]

lemma monster_headD_length : (monsterCV.headD []).length = monsterK + 1 :=
  (congrArg List.length
      (rfl : monsterCV.headD [] = (2 : ℤ) :: List.replicate monsterK 0)).trans
    ((List.length_cons _ _).trans (congrArg (· + 1) (List.length_replicate _ _)))

lemma numSubjects_monster : numSubjects monsterCV = monsterK + 1 :=
  monster_headD_length

set_option maxRecDepth 6000 in
lemma vps_monster :
    votes_per_subject monsterCV =
      ([2, 2, 2] : List ℤ) :: List.replicate monsterK ([0, 1, 1] : List ℤ) := by
  unfold votes_per_subject
  rw [monster_headD_length, List.range_succ_eq_map, List.map_cons, List.map_map]
  refine congrArg₂ List.cons ?_ ?_
  · show (monsterCV.map (fun c => c.getD 0 0)).insertionSort (· ≤ ·) = [2, 2, 2]
    rw [monster_map0]
    exact monster_sort0
  · refine List.eq_replicate.mpr ⟨?_, ?_⟩
    · rw [List.length_map, List.length_range]
    · intro b hb
      rw [List.mem_map] at hb
      obtain ⟨i, hi, hfi⟩ := hb
      rw [List.mem_range] at hi
      rw [← hfi]
      show (monsterCV.map (fun c => c.getD (i + 1) 0)).insertionSort (· ≤ ·) = [0, 1, 1]
      rw [monster_mapS i hi]
      exact monster_sortS

lemma target_x_eq_of_scan (ts : ℚ → ℚ × ℚ) (B : ℚ) (breaks : List ℤ) (v : ℚ)
    (h : scanSegments ts B (consecPairs breaks) = some v) :
    target_x ts B breaks = v := by
  unfold target_x
  rw [h]

lemma segmentValue_pos (ts : ℚ → ℚ × ℚ) (B xl : ℚ) (h : segTol < (ts xl).2) :
    segmentValue ts B xl = xl + (B - (ts xl).1) / (ts xl).2 := by
  unfold segmentValue
  dsimp only
  rw [if_pos h]

lemma monster_ts0_fst :
    (get_total_and_slope (votes_per_subject monsterCV) 0).1 = 2 := by
  rw [get_total_and_slope_fst, vps_monster, map_cons_replicate]
  rw [List.sum_cons, List.sum_replicate, nsmul_eq_mul]
  rw [show get_subject_allocation ([2, 2, 2] : List ℤ) 0 = 2 from by with_unfolding_all rfl,
    show get_subject_allocation ([0, 1, 1] : List ℤ) 0 = 0 from by with_unfolding_all rfl]
  rw [mul_zero, add_zero]

lemma monster_ts0_snd :
    (get_total_and_slope (votes_per_subject monsterCV) 0).2 = (monsterK : ℚ) := by
  rw [get_total_and_slope_snd, vps_monster, map_cons_replicate]
  rw [List.sum_cons, List.sum_replicate, nsmul_eq_mul]
  rw [show (if get_subject_allocation ([2, 2, 2] : List ℤ) 0 <
        get_subject_allocation ([2, 2, 2] : List ℤ) (0 + eps)
      then (get_subject_allocation ([2, 2, 2] : List ℤ) (0 + eps) -
        get_subject_allocation ([2, 2, 2] : List ℤ) 0) / eps
      else 0) = 0 from by with_unfolding_all rfl]
  rw [show (if get_subject_allocation ([0, 1, 1] : List ℤ) 0 <
        get_subject_allocation ([0, 1, 1] : List ℤ) (0 + eps)
      then (get_subject_allocation ([0, 1, 1] : List ℤ) (0 + eps) -
        get_subject_allocation ([0, 1, 1] : List ℤ) 0) / eps
      else 0) = 1 from by with_unfolding_all rfl]
  rw [mul_one, zero_add]

lemma monster_ts1_fst :
    (get_total_and_slope (votes_per_subject monsterCV) 1).1 = (monsterK : ℚ) + 2 := by
  rw [get_total_and_slope_fst, vps_monster, map_cons_replicate]
  rw [List.sum_cons, List.sum_replicate, nsmul_eq_mul]
  rw [show get_subject_allocation ([2, 2, 2] : List ℤ) 1 = 2 from by with_unfolding_all rfl,
    show get_subject_allocation ([0, 1, 1] : List ℤ) 1 = 1 from by with_unfolding_all rfl]
  rw [mul_one]
  exact add_comm 2 _

lemma monster_one_le : (1 : ℚ) ≤ (monsterK : ℚ) := by
  have h := monsterK_pos
  exact_mod_cast Nat.one_le_iff_ne_zero.mpr (by omega)

lemma monster_breaks : sorted_breaks (votes_per_subject monsterCV) = [0, 1, 2] := by
  have hmem : ∀ b : ℤ, b ∈ sorted_breaks (votes_per_subject monsterCV) ↔
      b ∈ ([0, 1, 2] : List ℤ) := by
    intro b
    rw [mem_sorted_breaks, vps_monster]
    constructor
    · rintro (rfl | ⟨votes, hv, hb⟩)
      · decide
      · rcases List.mem_cons.mp hv with h | h
        · subst h
          fin_cases hb <;> decide
        · have hv011 : votes = [0, 1, 1] := List.eq_of_mem_replicate h
          subst hv011
          fin_cases hb <;> decide
    · intro hb
      fin_cases hb
      · exact Or.inl rfl
      · exact Or.inr ⟨[0, 1, 1],
          List.mem_cons_of_mem _ (List.mem_replicate.mpr ⟨by have := monsterK_pos; omega, rfl⟩),
          by decide⟩
      · exact Or.inr ⟨[2, 2, 2], List.mem_cons_self _ _, by decide⟩
  refine List.eq_of_perm_of_sorted ?_ (sorted_breaks_sorted _) (by decide)
  refine List.perm_of_nodup_nodup_toFinset_eq (sorted_breaks_nodup _) (by decide) ?_
  ext b
  rw [List.mem_toFinset, List.mem_toFinset, hmem]

lemma monster_segTol_lt : segTol < (1 : ℚ) := by unfold segTol; norm_num

lemma monster_txC : txC 3 monsterCV = 1 / (monsterK : ℚ) := by
  have h1 : (get_total_and_slope (votes_per_subject monsterCV) (((0 : ℤ) : ℚ))).1 ≤
      ((3 : ℤ) : ℚ) := by
    rw [Int.cast_zero, monster_ts0_fst]
    norm_num
  have h2 : ((3 : ℤ) : ℚ) ≤
      (get_total_and_slope (votes_per_subject monsterCV) (((1 : ℤ) : ℚ))).1 + segTol := by
    rw [Int.cast_one, monster_ts1_fst]
    have ha := monster_one_le
    have hb : (0 : ℚ) < segTol := by unfold segTol; norm_num
    push_cast
    linarith
  have hbr : bracketCond (get_total_and_slope (votes_per_subject monsterCV))
      ((3 : ℤ) : ℚ) ((0 : ℤ), (1 : ℤ)) := ⟨h1, h2⟩
  have hscan : scanSegments (get_total_and_slope (votes_per_subject monsterCV)) ((3 : ℤ) : ℚ)
      (consecPairs (sorted_breaks (votes_per_subject monsterCV))) =
      some (segmentValue (get_total_and_slope (votes_per_subject monsterCV)) ((3 : ℤ) : ℚ)
        (((0 : ℤ) : ℚ))) := by
    rw [monster_breaks]
    rw [show consecPairs [0, 1, 2] = [((0 : ℤ), (1 : ℤ)), (1, 2)] from rfl]
    rw [scanSegments_cons, if_pos hbr]
  have htx := target_x_eq_of_scan _ _ _ _ hscan
  show target_x (get_total_and_slope (votes_per_subject monsterCV)) ((3 : ℤ) : ℚ)
      (sorted_breaks (votes_per_subject monsterCV)) = 1 / (monsterK : ℚ)
  rw [htx, Int.cast_zero]
  rw [segmentValue_pos _ _ _ (by
    rw [monster_ts0_snd]
    have ha := monster_one_le
    have hb := monster_segTol_lt
    linarith)]
  rw [monster_ts0_fst, monster_ts0_snd]
  have hK : (monsterK : ℚ) ≠ 0 := by
    have := monster_one_le
    intro h
    rw [h] at this
    linarith
  push_cast
  rw [show (3 : ℚ) - 2 = 1 from by norm_num, zero_add]

lemma monster_floatsC :
    floatsC 3 monsterCV = 2 :: List.replicate monsterK (1 / (monsterK : ℚ)) := by
  show (votes_per_subject monsterCV).map
      (fun v => get_subject_allocation v (txC 3 monsterCV)) = _
  rw [monster_txC, vps_monster, map_cons_replicate]
  rw [monster_gsa1, monster_gsa2]

lemma monster_intsC :
    intsC 3 monsterCV = (2 : ℤ) :: List.replicate monsterK 0 := by
  show (floatsC 3 monsterCV).map floor_tol = _
  rw [monster_floatsC, map_cons_replicate]
  rw [show floor_tol 2 = 2 from by with_unfolding_all rfl, monster_floor_tol]

lemma monster_remainderC : remainderC 3 monsterCV = 1 := by
  show 3 - (intsC 3 monsterCV).sum = 1
  rw [monster_intsC, List.sum_cons, List.sum_replicate, smul_zero, add_zero]
  norm_num

lemma monster_remainderNB : remainderNB 3 monsterCV = 1 := by
  rw [← remainderC_eq_remainderNB]
  exact monster_remainderC

lemma monster_floatsNB :
    floatsNB 3 monsterCV = 2 :: List.replicate monsterK (1 / (monsterK : ℚ)) := by
  rw [← floatsC_eq_floatsNB]
  exact monster_floatsC

lemma monster_intsNB :
    intsNB 3 monsterCV = (2 : ℤ) :: List.replicate monsterK 0 := by
  rw [← intsC_eq_intsNB]
  exact monster_intsC

lemma monster_frac0 :
    fracPart (floatsNB 3 monsterCV) (intsNB 3 monsterCV) 0 = 0 := by
  unfold fracPart
  rw [monster_floatsNB, monster_intsNB]
  rw [List.getD_cons_zero, List.getD_cons_zero]
  norm_num

lemma monster_fracS (i : ℕ) (hi : i < monsterK) :
    fracPart (floatsNB 3 monsterCV) (intsNB 3 monsterCV) (i + 1) = 1 / (monsterK : ℚ) := by
  unfold fracPart
  rw [monster_floatsNB, monster_intsNB]
  rw [List.getD_cons_succ, List.getD_cons_succ,
    getD_replicate _ _ _ _ hi, getD_replicate _ _ _ _ hi]
  rw [Int.cast_zero, sub_zero]

lemma monster_frac1 :
    fracPart (floatsNB 3 monsterCV) (intsNB 3 monsterCV) 1 = 1 / (monsterK : ℚ) := by
  show fracPart (floatsNB 3 monsterCV) (intsNB 3 monsterCV) (0 + 1) = 1 / (monsterK : ℚ)
  exact monster_fracS 0 monsterK_pos

lemma monster_keyNB : ∀ i < monsterK + 1,
    keyNB (floatsNB 3 monsterCV) (intsNB 3 monsterCV) i = (0, -(i : ℤ)) := by
  intro i hi
  unfold keyNB
  cases i with
  | zero =>
    rw [monster_frac0, show round10 0 = 0 from by with_unfolding_all rfl]
  | succ i =>
    rw [monster_fracS i (by omega), monster_round10]

lemma sortIndices_eq_range_of_key (key : ℕ → ℚ × ℤ) (m : ℕ) (c : ℚ)
    (hkey : ∀ i < m, key i = (c, -(i : ℤ))) :
    sortIndices key m = List.range m := by
  have hsorted : (sortIndices key m).Sorted (· ≤ ·) := by
    refine List.Pairwise.imp_of_mem ?_ (sortIndices_sorted_keyOrder key m)
    intro i j hi hj hji
    have him : i < m := sortIndices_mem_lt key m i hi
    have hjm : j < m := sortIndices_mem_lt key m j hj
    unfold keyOrder lexLe at hji
    rw [hkey i him, hkey j hjm] at hji
    dsimp only at hji
    rcases hji with h1 | ⟨_, h2⟩
    · exact absurd h1 (lt_irrefl c)
    · omega
  refine List.eq_of_perm_of_sorted (sortIndices_perm key m) hsorted ?_
  exact (List.pairwise_lt_range m).imp le_of_lt

lemma monster_sortIndices :
    sortIndices (keyNB (floatsNB 3 monsterCV) (intsNB 3 monsterCV)) (numSubjects monsterCV) =
      List.range (monsterK + 1) := by
  rw [numSubjects_monster]
  exact sortIndices_eq_range_of_key _ _ 0 monster_keyNB

lemma distribute_units_mod_one (indices : List ℕ) (m : ℕ) (hm : m ≠ 0) (ints : List ℤ) :
    distribute_units_mod indices m ints 0 1 =
      some (ints.set (indices.getD 0 0) (ints.getD (indices.getD 0 0) 0 + 1)) := by
  show distribute_units_mod indices m ints 0 (0 + 1) = _
  simp only [distribute_units_mod, if_neg hm, Nat.zero_mod]

lemma range_getD_zero (n : ℕ) : (List.range (n + 1)).getD 0 0 = 0 := by
  rw [List.range_succ_eq_map]
  rfl

lemma no_binary_eq (B : ℤ) (cv : List (List ℤ)) (hcv : cv ≠ [])
    (h0 : 0 < remainderNB B cv) :
    no_binary_search_compute_budget B cv =
      distribute_units_mod
        (sortIndices (keyNB (floatsNB B cv) (intsNB B cv)) (numSubjects cv))
        (numSubjects cv) (intsNB B cv) 0 (remainderNB B cv).toNat := by
  unfold no_binary_search_compute_budget
  rw [if_neg hcv]
  dsimp only
  rw [if_pos h0]

lemma monster_final :
    no_binary_search_compute_budget 3 monsterCV =
      some ((3 : ℤ) :: List.replicate monsterK 0) := by
  rw [no_binary_eq 3 monsterCV monster_ne_nil (by rw [monster_remainderNB]; norm_num)]
  rw [monster_sortIndices, numSubjects_monster, monster_intsNB, monster_remainderNB]
  rw [show ((1 : ℤ).toNat) = 1 from rfl]
  rw [distribute_units_mod_one _ _ (Nat.succ_ne_zero _)]
  rw [range_getD_zero, List.getD_cons_zero]
  rw [show (2 : ℤ) + 1 = 3 from rfl]
  rw [List.set_cons_zero]

/-! ## Claim theorems -/

/-- C9: on the specification's concrete scenarios both solvers return the
stated outputs: budget 100 with votes `[[100,0,0],[0,0,100]]` gives
`[50,0,50]`, and budget 30 with the three 9-subject vote vectors gives
`[0,0,0,5,5,5,5,5,5]`. -/
theorem C9_concrete_scenarios :
    compute_budget 100 [[100, 0, 0], [0, 0, 100]] = some [50, 0, 50] ∧
    no_binary_search_compute_budget 100 [[100, 0, 0], [0, 0, 100]] =
      some [50, 0, 50] ∧
    compute_budget 30
      [[0, 0, 6, 0, 0, 6, 6, 6, 6], [0, 6, 0, 6, 6, 6, 6, 0, 0],
        [6, 0, 0, 6, 6, 0, 0, 6, 6]] = some [0, 0, 0, 5, 5, 5, 5, 5, 5] ∧
    no_binary_search_compute_budget 30
      [[0, 0, 6, 0, 0, 6, 6, 6, 6], [0, 6, 0, 6, 6, 6, 6, 0, 0],
        [6, 0, 0, 6, 6, 0, 0, 6, 6]] = some [0, 0, 0, 5, 5, 5, 5, 5, 5] :=
  ⟨by with_unfolding_all rfl, by with_unfolding_all rfl,
    by with_unfolding_all rfl, by with_unfolding_all rfl⟩

set_option maxRecDepth 6000 in
/-- C1 counterexample: with budget 3 and votes `[[10],[10]]` the aggregate
allocation at phantom value 0 is already 5 > 3, no segment brackets the
budget, both solvers snap to the last breakpoint and return `[10]`, whose
sum 10 is not the requested total 3. -/
theorem C1_counterexample :
    compute_budget 3 [[10], [10]] = some [10] ∧
    no_binary_search_compute_budget 3 [[10], [10]] = some [10] ∧
    ([(10 : ℤ)]).sum ≠ 3 :=
  ⟨by with_unfolding_all rfl, by with_unfolding_all rfl, by norm_num⟩

set_option maxRecDepth 6000 in
/-- C3 counterexample: with budget 0 and votes `[[10],[10]]`
`compute_budget` returns `[10]`, which is not all-zero. -/
theorem C3_counterexample :
    compute_budget 0 [[10], [10]] = some [10] ∧ (10 : ℤ) ≠ 0 :=
  ⟨by with_unfolding_all rfl, by norm_num⟩

set_option maxRecDepth 6000 in
/-- C2 counterexample: with budget 3 and votes `[[1]]` the rounding
shortfall is 2 while there is a single subject; `compute_budget` indexes the
one-element tie-break list out of range (modelled `none`), while
`no_binary_search_compute_budget` wraps the index round-robin and returns
`[3]`: the outputs are not identical. -/
theorem C2_counterexample :
    compute_budget 3 [[1]] = none ∧
    no_binary_search_compute_budget 3 [[1]] = some [3] ∧
    compute_budget 3 [[1]] ≠ no_binary_search_compute_budget 3 [[1]] := by
  refine ⟨by with_unfolding_all rfl, by with_unfolding_all rfl, ?_⟩
  intro h
  rw [show compute_budget 3 [[1]] = none from by with_unfolding_all rfl,
    show no_binary_search_compute_budget 3 [[1]] = some [3] from by
      with_unfolding_all rfl] at h
  exact Option.noConfusion h

set_option maxRecDepth 6000 in
/-- C6 counterexample: with budget 3 and votes `[[1]]` the shortfall (2)
exceeds the subject count (1); `no_binary_search_compute_budget` reuses
indices round-robin and completes, but `compute_budget` fails with an index
error instead of completing, so the claimed behaviour does not hold for
both functions. -/
theorem C6_counterexample :
    compute_budget 3 [[1]] = none ∧
    no_binary_search_compute_budget 3 [[1]] = some [3] ∧
    ¬(∃ out, compute_budget 3 [[1]] = some out) := by
  refine ⟨by with_unfolding_all rfl, by with_unfolding_all rfl, ?_⟩
  rintro ⟨out, hout⟩
  rw [show compute_budget 3 [[1]] = none from by with_unfolding_all rfl] at hout
  exact Option.noConfusion hout

/-- C10: for every non-empty vote matrix whose citizens all have zero
subjects (such as `[[]]` or `[[], []]`) and every positive budget, neither
function returns a value: `compute_budget` indexes the empty tie-break
list out of range and `no_binary_search_compute_budget` computes `i % 0`,
both modelled as `none`. -/
theorem C10_zero_subject_rows_fail (cv : List (List ℤ)) (hcv : cv ≠ [])
    (hrows : ∀ c ∈ cv, c = []) (B : ℤ) (hB : 0 < B) :
    compute_budget B cv = none ∧
    no_binary_search_compute_budget B cv = none := by
  have hns : numSubjects cv = 0 := by
    cases cv with
    | nil => exact absurd rfl hcv
    | cons h t =>
      have hh : h = [] := hrows h (List.mem_cons_self _ _)
      show ((h :: t).headD []).length = 0
      rw [show (h :: t).headD [] = h from rfl, hh]
      rfl
  have hvps : votes_per_subject cv = [] := by
    unfold votes_per_subject
    rw [show (cv.headD []).length = 0 from hns]
    rfl
  have hfloats : floatsC B cv = [] := by
    show (votes_per_subject cv).map _ = []
    rw [hvps]
    rfl
  have hints : intsC B cv = [] := by
    show (floatsC B cv).map floor_tol = []
    rw [hfloats]
    rfl
  have hrem : remainderC B cv = B := by
    show B - (intsC B cv).sum = B
    rw [hints]
    simp
  have hr0 : 0 < remainderC B cv := by rw [hrem]; exact hB
  have hsort0 : ∀ key : ℕ → ℚ × ℤ, sortIndices key (numSubjects cv) = [] := by
    intro key
    rw [hns]
    rfl
  obtain ⟨r, hr⟩ : ∃ r, (remainderC B cv).toNat = r + 1 :=
    ⟨(remainderC B cv).toNat - 1, by rw [hrem]; omega⟩
  constructor
  · unfold compute_budget
    rw [if_neg hcv]
    dsimp only
    rw [if_pos hr0, hsort0, hr]
    exact distribute_units_none [] (r + 1) _ 0 (by simp) (by omega)
  · have hr0' : 0 < remainderNB B cv := by
      rw [← remainderC_eq_remainderNB]
      exact hr0
    have hr' : (remainderNB B cv).toNat = r + 1 := by
      rw [← remainderC_eq_remainderNB]
      exact hr
    unfold no_binary_search_compute_budget
    rw [if_neg hcv]
    dsimp only
    rw [if_pos hr0', hns, hr']
    simp only [distribute_units_mod, if_pos rfl, if_true]

/-- Witness for C10 at the concrete budget 7 and matrix `[[]]`. -/
theorem C10_zero_subject_rows_fail_witness :
    compute_budget 7 [[]] = none ∧
    no_binary_search_compute_budget 7 [[]] = none :=
  C10_zero_subject_rows_fail [[]] (by simp)
    (by
      intro c hc
      rw [List.mem_singleton] at hc
      exact hc)
    7 (by norm_num)

/-- C5: `get_subject_allocation votes x` is the median of the
`(n+2)`-element multiset obtained by inserting `0` and `x` into the
submissions, where the median of a multiset takes the exact middle element
of its ascending sort when the size is odd and the mean of the two middle
elements when it is even. -/
theorem C5_median_of_augmented_multiset (votes : List ℤ) (x : ℚ) :
    get_subject_allocation votes x =
      medianSpec (x ::ₘ (0 : ℚ) ::ₘ ((votes.map (fun v : ℤ => (v : ℚ))) : Multiset ℚ)) := by
  have harr : ((votes.map (fun v : ℤ => (v : ℚ))) ++ [0, x]).insertionSort (· ≤ ·) =
      Multiset.sort (· ≤ ·)
        (x ::ₘ (0 : ℚ) ::ₘ ((votes.map (fun v : ℤ => (v : ℚ))) : Multiset ℚ)) := by
    apply List.eq_of_perm_of_sorted ?_ (List.sorted_insertionSort _ _)
      (Multiset.sort_sorted _ _)
    refine (List.perm_insertionSort _ _).trans ?_
    have h2 : (Multiset.sort (· ≤ ·)
          (x ::ₘ (0 : ℚ) ::ₘ ((votes.map (fun v : ℤ => (v : ℚ))) : Multiset ℚ)) : Multiset ℚ)
        = ((x :: (0 : ℚ) :: votes.map (fun v : ℤ => (v : ℚ))) : List ℚ) := by
      rw [Multiset.sort_eq]
      rfl
    have h3 := Multiset.coe_eq_coe.mp h2
    refine List.Perm.trans ?_ h3.symm
    refine List.perm_append_comm.trans ?_
    exact List.Perm.swap x 0 _
  unfold get_subject_allocation medianSpec
  rw [harr]

/-- C7: increasing one submitted amount for a subject, holding the other
votes and the phantom value fixed, never decreases the subject's continuous
allocation. -/
theorem C7_allocation_monotone (pre post : List ℤ) (v v' : ℤ) (x : ℚ)
    (hv : v ≤ v') :
    get_subject_allocation (pre ++ v :: post) x ≤
      get_subject_allocation (pre ++ v' :: post) x := by
  rw [get_subject_allocation_eq_medList, get_subject_allocation_eq_medList]
  apply medList_mono
  have hmap : ∀ u : ℤ, ((pre ++ u :: post).map (fun w : ℤ => (w : ℚ))) ++ [0, x] =
      (pre.map (fun w : ℤ => (w : ℚ))) ++ (u : ℚ) ::
        ((post.map (fun w : ℤ => (w : ℚ))) ++ [0, x]) := by
    intro u
    simp
  rw [hmap v, hmap v', insertionSort_middle, insertionSort_middle]
  exact forall2_orderedInsert (by exact_mod_cast hv) (List.sorted_insertionSort _ _)

/-- Witness for C7: raising the middle vote of `[2, 3, 7]` to 5 does not
decrease the allocation at phantom value 4. -/
theorem C7_allocation_monotone_witness :
    get_subject_allocation [2, 3, 7] 4 ≤ get_subject_allocation [2, 5, 7] 4 :=
  C7_allocation_monotone [2] [7] 3 5 4 (by norm_num)

/-- C4: the phantom value chosen by the solver satisfies the specification's
formula (with `total`/`slope` the components of the aggregate estimator
`ts`, the form both solver variants instantiate): if index `i` is the first
consecutive breakpoint pair with `total(x_low) ≤ B ≤ total(x_high) + 1e-9`
then the chosen value is `x_low + (B - total(x_low)) / slope(x_low)` when
`slope(x_low)` exceeds the tolerance and `x_low` otherwise; if no pair
brackets the budget, the same formula with the same zero-slope fallback is
applied to the largest breakpoint. -/
theorem C4_phantom_formula (ts : ℚ → ℚ × ℚ) (B : ℚ) (breaks : List ℤ) :
    (∀ i, i + 1 < breaks.length →
      bracketCond ts B (breaks.getD i 0, breaks.getD (i + 1) 0) →
      (∀ j, j < i → ¬ bracketCond ts B (breaks.getD j 0, breaks.getD (j + 1) 0)) →
      target_x ts B breaks =
        (if segTol < (ts (breaks.getD i 0 : ℚ)).2 then
          (breaks.getD i 0 : ℚ) +
            (B - (ts (breaks.getD i 0 : ℚ)).1) / (ts (breaks.getD i 0 : ℚ)).2
        else (breaks.getD i 0 : ℚ))) ∧
    ((∀ i, i + 1 < breaks.length →
        ¬ bracketCond ts B (breaks.getD i 0, breaks.getD (i + 1) 0)) →
      target_x ts B breaks =
        (if segTol < (ts (breaks.getLastD 0 : ℚ)).2 then
          (breaks.getLastD 0 : ℚ) +
            (B - (ts (breaks.getLastD 0 : ℚ)).1) / (ts (breaks.getLastD 0 : ℚ)).2
        else (breaks.getLastD 0 : ℚ))) := by
  constructor
  · intro i hi hcond hfirst
    have hlen : i < (consecPairs breaks).length := by
      rw [consecPairs_length]; omega
    have hscan := scanSegments_some_of_first ts B (consecPairs breaks) i hlen
      (by rw [consecPairs_getD breaks i hi]; exact hcond)
      (fun j hj => by
        have hj1 : j + 1 < breaks.length := by omega
        rw [consecPairs_getD breaks j hj1]; exact hfirst j hj)
    unfold target_x
    rw [hscan]
    rw [consecPairs_getD breaks i hi]
    rfl
  · intro hall
    have hnone : scanSegments ts B (consecPairs breaks) = none := by
      apply scanSegments_none_of_all
      intro p hp
      obtain ⟨k, hk, hpk⟩ := List.getElem_of_mem hp
      have hk1 : k + 1 < breaks.length := by
        have := consecPairs_length breaks; omega
      have : p = (breaks.getD k 0, breaks.getD (k + 1) 0) := by
        rw [← hpk, ← consecPairs_getD breaks k hk1]
        exact (List.getD_eq_getElem _ _ hk).symm
      rw [this]
      exact hall k hk1
    unfold target_x
    rw [hnone]
    rfl

/-- C6 amended: when the rounding shortfall exceeds the (positive) number of
subjects, only `no_binary_search_compute_budget` reuses subject indices in
round-robin order and completes (absorbing every shortfall unit, so the
output sums to the budget); `compute_budget` fails with an index error
instead of completing. -/
theorem C6_overrun_amended (B : ℤ) (cv : List (List ℤ)) (hcv : cv ≠ [])
    (hm : 0 < numSubjects cv)
    (hr : (numSubjects cv : ℤ) < remainderC B cv) :
    compute_budget B cv = none ∧
    ∃ out, no_binary_search_compute_budget B cv = some out ∧ out.sum = B := by
  have hr0 : 0 < remainderC B cv := by omega
  have hrNB : remainderNB B cv = remainderC B cv := (remainderC_eq_remainderNB B cv).symm
  constructor
  · unfold compute_budget
    rw [if_neg hcv, if_pos hr0]
    apply distribute_units_overrun
    · rw [sortIndices_length]
      omega
    · omega
  · unfold no_binary_search_compute_budget
    rw [if_neg hcv, if_pos (by omega : 0 < remainderNB B cv)]
    obtain ⟨out, hout, hsum, _⟩ := distribute_units_mod_some
      (sortIndices (keyNB (floatsNB B cv) (intsNB B cv)) (numSubjects cv))
      (numSubjects cv) (by omega) (sortIndices_length _ _) (sortIndices_mem_lt _ _)
      (remainderNB B cv).toNat (intsNB B cv) 0 (intsNB_length B cv)
    refine ⟨out, hout, ?_⟩
    rw [hsum]
    have : ((remainderNB B cv).toNat : ℤ) = remainderNB B cv := by
      rw [hrNB]; omega
    rw [this, hrNB]
    unfold remainderC
    rw [intsC_eq_intsNB]
    ring

/-- Witness for the amended C6 at budget 3 and votes `[[1]]`: the shortfall
2 exceeds the single subject, `compute_budget` fails and the round-robin
variant returns a value summing to 3. -/
theorem C6_overrun_amended_witness :
    compute_budget 3 [[1]] = none ∧
    ∃ out, no_binary_search_compute_budget 3 [[1]] = some out ∧ out.sum = 3 := by
  apply C6_overrun_amended 3 [[1]] (by simp)
  · rw [show numSubjects [[1]] = 1 from rfl]
    norm_num
  · rw [show numSubjects [[1]] = 1 from rfl,
      show remainderC 3 [[1]] = 2 from by with_unfolding_all rfl]
    norm_num

/-- C3 amended: with budget 0, `compute_budget` returns the all-zero
sequence provided the aggregate continuous allocation at phantom value 0 is
itself 0 (equivalently, no subject already has a positive median with the
phantom at 0); the counterexample shows the unconditional claim fails. -/
theorem C3_zero_budget_amended (cv : List (List ℤ)) (hcv : cv ≠ [])
    (hnn : ∀ row ∈ cv, ∀ v ∈ row, 0 ≤ v)
    (h0 : (get_total_and_slope (votes_per_subject cv) 0).1 = 0) :
    compute_budget 0 cv = some (List.replicate (numSubjects cv) 0) := by
  set vps := votes_per_subject cv with hvps
  set ts := get_total_and_slope vps with hts
  have hvnn := votes_per_subject_nonneg cv hnn
  have hbnn : ∀ b ∈ sorted_breaks vps, (0 : ℤ) ≤ b := by
    intro b hb
    rcases (mem_sorted_breaks vps b).mp hb with h | ⟨votes, hv, hmem⟩
    · omega
    · exact hvnn votes hv b hmem
  have htotal_nonneg : ∀ y : ℚ, 0 ≤ y → 0 ≤ (ts y).1 := by
    intro y hy
    rw [hts, get_total_and_slope_fst]
    apply List.sum_nonneg
    intro q hq
    obtain ⟨votes, hv, hvq⟩ := List.mem_map.mp hq
    rw [← hvq]
    exact get_subject_allocation_nonneg (hvnn votes hv) hy
  have hsv : segmentValue ts 0 0 = 0 := by
    unfold segmentValue
    dsimp only
    rw [h0]
    split_ifs <;> simp
  have hhead : (sorted_breaks vps).getD 0 0 = 0 := sorted_breaks_head_zero vps hvnn
  have htx : txC 0 cv = 0 := by
    unfold txC
    rw [← hvps, ← hts]
    rw [show (((0 : ℤ)) : ℚ) = 0 from by norm_num]
    by_cases hlen : 2 ≤ (sorted_breaks vps).length
    · have hplen : 0 < (consecPairs (sorted_breaks vps)).length := by
        rw [consecPairs_length]
        omega
      have hcond : bracketCond ts 0
          ((sorted_breaks vps).getD 0 0, (sorted_breaks vps).getD 1 0) := by
        constructor
        · rw [hhead]
          push_cast
          rw [h0]
        · have hb1 : (sorted_breaks vps).getD 1 0 ∈ sorted_breaks vps := by
            rw [List.getD_eq_getElem _ _ (by omega)]
            exact List.getElem_mem _
          have := htotal_nonneg ((sorted_breaks vps).getD 1 0 : ℚ)
            (by exact_mod_cast hbnn _ hb1)
          have hseg : (0 : ℚ) < segTol := by norm_num [segTol]
          dsimp only
          linarith
      have hscan := scanSegments_some_of_first ts 0 (consecPairs (sorted_breaks vps))
        0 hplen (by rwa [consecPairs_getD _ 0 (by omega)])
        (fun j hj => absurd hj (Nat.not_lt_zero j))
      unfold target_x
      rw [hscan]
      rw [consecPairs_getD _ 0 (by omega)]
      dsimp only
      rw [hhead]
      push_cast
      exact hsv
    · have hlen1 : (sorted_breaks vps).length = 1 := by
        have h1 := sorted_breaks_ne_nil vps
        have h2 : (sorted_breaks vps).length ≠ 0 := by
          intro hc
          exact h1 (List.length_eq_zero.mp hc)
        omega
      obtain ⟨b, hb⟩ := List.length_eq_one.mp hlen1
      have hb0 : b = 0 := by
        have := hhead
        rw [hb] at this
        simpa using this
      unfold target_x
      rw [hb, hb0]
      rw [show consecPairs [(0 : ℤ)] = [] from rfl]
      rw [show scanSegments ts 0 [] = none from rfl]
      simpa using hsv
  have hfl : floatsC 0 cv = List.replicate (numSubjects cv) 0 := by
    rw [List.eq_replicate]
    constructor
    · unfold floatsC
      exact floatsAt_length cv _
    · unfold floatsC floatsAt
      rw [htx, ← hvps]
      intro q hq
      apply sum_zero_nonneg_all_zero ?_ ?_ q hq
      · intro y hy
        obtain ⟨votes, hv, hvy⟩ := List.mem_map.mp hy
        rw [← hvy]
        exact get_subject_allocation_nonneg (hvnn votes hv) le_rfl
      · rw [← get_total_and_slope_fst]
        exact h0
  have hint : intsC 0 cv = List.replicate (numSubjects cv) 0 := by
    unfold intsC intsOf
    rw [hfl, List.map_replicate, floor_tol_zero]
  have hrem : remainderC 0 cv = 0 := by
    unfold remainderC
    rw [hint]
    simp
  unfold compute_budget
  rw [if_neg hcv]
  dsimp only
  rw [hrem, hint]
  simp

/-- Witness for the amended C3: on the first doctest votes the aggregate at
phantom 0 is 0 and the zero-budget output is all-zero. -/
theorem C3_zero_budget_amended_witness :
    compute_budget 0 [[100, 0, 0], [0, 0, 100]] = some [0, 0, 0] :=
  C3_zero_budget_amended [[100, 0, 0], [0, 0, 100]] (by simp)
    (by intro row hrow v hv; fin_cases hrow <;> fin_cases hv <;> norm_num)
    (by with_unfolding_all rfl)

/-- C1 amended: any list returned by `compute_budget` or by
`no_binary_search_compute_budget` sums exactly to the budget, provided the
non-empty equal-row-length non-negative vote matrix has at most `10 ^ 10`
subjects and the budget is at least the aggregate continuous allocation at
phantom value 0 (the counterexample shows exactness fails below that
aggregate, where the solver saturates at the last breakpoint). -/
theorem C1_exact_sum_amended (B : ℤ) (cv : List (List ℤ)) (hcv : cv ≠ [])
    (hlen : ∀ row ∈ cv, row.length = numSubjects cv)
    (hnn : ∀ row ∈ cv, ∀ v ∈ row, 0 ≤ v)
    (hm : numSubjects cv ≤ 10 ^ 10)
    (hB : (get_total_and_slope (votes_per_subject cv) 0).1 ≤ (B : ℚ)) :
    (∀ out, compute_budget B cv = some out → out.sum = B) ∧
    (∀ out, no_binary_search_compute_budget B cv = some out → out.sum = B) := by
  have hmq : ((numSubjects cv : ℚ)) * floorTol < 1 := by
    have h1 : ((numSubjects cv : ℚ)) ≤ 10 ^ 10 := by exact_mod_cast hm
    have h2 : floorTol = 1 / 10 ^ 11 := rfl
    rw [h2]
    have h3 : (0 : ℚ) < 10 ^ 11 := by norm_num
    rw [div_eq_mul_inv, ← mul_assoc]
    rw [show ((numSubjects cv : ℚ)) * 1 = (numSubjects cv : ℚ) from by ring]
    rw [show (1 : ℚ) = 10 ^ 11 * (10 ^ 11)⁻¹ from by norm_num]
    apply mul_lt_mul_of_pos_right ?_ (by norm_num)
    linarith
  have hile : (intsC B cv).sum ≤ B :=
    intsC_sum_le B cv hmq (target_total_le B cv hcv hnn hB)
  constructor
  · intro out hout
    unfold compute_budget at hout
    rw [if_neg hcv] at hout
    dsimp only at hout
    by_cases hrem : 0 < remainderC B cv
    · rw [if_pos hrem] at hout
      have hidx : ∀ j ∈ sortIndices (keyC (floatsC B cv) (intsC B cv)) (numSubjects cv),
          j < (sortIndices (keyC (floatsC B cv) (intsC B cv)) (numSubjects cv)).length := by
        intro j hj
        rw [sortIndices_length]
        exact sortIndices_mem_lt _ _ j hj
      have := distribute_units_sum _ hidx (remainderC B cv).toNat (intsC B cv) 0
        (by rw [intsC_length, sortIndices_length]) out hout
      rw [this]
      have htn : ((remainderC B cv).toNat : ℤ) = remainderC B cv := by omega
      rw [htn]
      unfold remainderC
      ring
    · rw [if_neg hrem] at hout
      cases hout
      unfold remainderC at hrem
      omega
  · intro out hout
    unfold no_binary_search_compute_budget at hout
    rw [if_neg hcv] at hout
    dsimp only at hout
    rw [← floatsC_eq_floatsNB, ← intsC_eq_intsNB, ← remainderC_eq_remainderNB] at hout
    by_cases hrem : 0 < remainderC B cv
    · rw [if_pos hrem] at hout
      by_cases hm0 : numSubjects cv = 0
      · obtain ⟨r, hr⟩ : ∃ r, (remainderC B cv).toNat = r + 1 := ⟨(remainderC B cv).toNat - 1, by omega⟩
        rw [hr, hm0] at hout
        simp only [distribute_units_mod, if_pos rfl] at hout
        exact absurd hout (by simp)
      · obtain ⟨out0, hout0, hsum0, _⟩ := distribute_units_mod_some
          (sortIndices (keyNB (floatsC B cv) (intsC B cv)) (numSubjects cv))
          (numSubjects cv) hm0 (sortIndices_length _ _) (sortIndices_mem_lt _ _)
          (remainderC B cv).toNat (intsC B cv) 0 (intsC_length B cv)
        rw [hout0] at hout
        cases hout
        rw [hsum0]
        have htn : ((remainderC B cv).toNat : ℤ) = remainderC B cv := by omega
        rw [htn]
        unfold remainderC
        ring
    · rw [if_neg hrem] at hout
      cases hout
      unfold remainderC at hrem
      omega

/-- Witness for the amended C1 on the first doctest scenario. -/
theorem C1_exact_sum_amended_witness :
    (∀ out, compute_budget 100 [[100, 0, 0], [0, 0, 100]] = some out →
      out.sum = 100) ∧
    (∀ out, no_binary_search_compute_budget 100 [[100, 0, 0], [0, 0, 100]] =
      some out → out.sum = 100) :=
  C1_exact_sum_amended 100 [[100, 0, 0], [0, 0, 100]] (by simp)
    (by intro row hrow; fin_cases hrow <;> rfl)
    (by intro row hrow v hv; fin_cases hrow <;> fin_cases hv <;> norm_num)
    (by norm_num [numSubjects])
    (by
      rw [show (get_total_and_slope (votes_per_subject [[100, 0, 0], [0, 0, 100]]) 0).1 = 0
        from by with_unfolding_all rfl]
      norm_num)


/-- C2 amended: the two solvers return identical outputs whenever (a) the
rounding shortfall does not exceed the subject count (ruling out the
index-error/round-robin divergence) and (b) distinct fractional remainders
of different subjects are separated by more than `10⁻¹⁰` (so that rounding
the tie-break key to 10 decimal places cannot reorder them). -/
theorem C2_equivalence_amended (B : ℤ) (cv : List (List ℤ))
    (hsep : ∀ i < numSubjects cv, ∀ j < numSubjects cv,
      fracPart (floatsC B cv) (intsC B cv) i ≠ fracPart (floatsC B cv) (intsC B cv) j →
      1 / 10 ^ 10 <
        |fracPart (floatsC B cv) (intsC B cv) i - fracPart (floatsC B cv) (intsC B cv) j|)
    (hr : remainderC B cv ≤ (numSubjects cv : ℤ)) :
    compute_budget B cv = no_binary_search_compute_budget B cv := by
  by_cases hcv : cv = []
  · subst hcv
    rfl
  · unfold compute_budget no_binary_search_compute_budget
    rw [if_neg hcv, if_neg hcv]
    dsimp only
    rw [← floatsC_eq_floatsNB, ← intsC_eq_intsNB, ← remainderC_eq_remainderNB]
    by_cases h0 : 0 < remainderC B cv
    · rw [if_pos h0, if_pos h0]
      rw [sortIndices_eq_of_sep _ _ _ hsep]
      exact (distribute_units_mod_eq _ _ (sortIndices_length _ _) _ _ 0 (by omega)).symm
    · rw [if_neg h0, if_neg h0]

/-- Witness for the amended C2 on the first doctest scenario: the shortfall
is 0 and all fractional remainders are equal, so both solvers agree. -/
theorem C2_equivalence_amended_witness :
    compute_budget 100 [[100, 0, 0], [0, 0, 100]] =
      no_binary_search_compute_budget 100 [[100, 0, 0], [0, 0, 100]] := by
  apply C2_equivalence_amended 100 [[100, 0, 0], [0, 0, 100]]
  · intro i hi j hj hne
    exfalso
    apply hne
    rw [show numSubjects [[100, 0, 0], [0, 0, 100]] = 3 from rfl] at hi hj
    interval_cases i <;> interval_cases j <;> with_unfolding_all rfl
  · rw [show remainderC 100 [[100, 0, 0], [0, 0, 100]] = 0 from by with_unfolding_all rfl,
      show numSubjects [[100, 0, 0], [0, 0, 100]] = 3 from rfl]
    norm_num

/-- Witness for C4: on the two-citizen three-subject scenario with budget
100 the first segment `[0, 100]` brackets the budget, the slope there is 1
and the solver picks the phantom value 100. -/
theorem C4_phantom_formula_witness :
    target_x (get_total_and_slope (votes_per_subject [[100, 0, 0], [0, 0, 100]]))
      100 [0, 100] = 100 := by
  have h := (C4_phantom_formula
    (get_total_and_slope (votes_per_subject [[100, 0, 0], [0, 0, 100]]))
    100 [0, 100]).1 0 (by norm_num)
    (by
      constructor
      · rw [show (get_total_and_slope (votes_per_subject [[100, 0, 0], [0, 0, 100]])
          (([0, 100].getD 0 0 : ℤ) : ℚ)).1 = 0 from by with_unfolding_all rfl]
        norm_num
      · rw [show (get_total_and_slope (votes_per_subject [[100, 0, 0], [0, 0, 100]])
          (([0, 100].getD 1 0 : ℤ) : ℚ)).1 = 100 from by with_unfolding_all rfl]
        norm_num [segTol])
    (fun j hj => absurd hj (Nat.not_lt_zero j))
  rw [h]
  rw [show (get_total_and_slope (votes_per_subject [[100, 0, 0], [0, 0, 100]])
    (([0, 100].getD 0 0 : ℤ) : ℚ)).2 = 1 from by with_unfolding_all rfl,
    show (get_total_and_slope (votes_per_subject [[100, 0, 0], [0, 0, 100]])
    (([0, 100].getD 0 0 : ℤ) : ℚ)).1 = 0 from by with_unfolding_all rfl]
  norm_num [segTol]


/-- C8 is refuted for `no_binary_search_compute_budget`: on the matrix
`monsterCV` (3 citizens, 4·10¹⁰ + 1 subjects; citizen votes
`2,0,0,…`, `2,1,1,…`, `2,1,1,…`) with budget 3 the rounding shortfall is 1,
subject 0 has fractional remainder 0 while subject 1 has the strictly larger
remainder `1/(4·10¹⁰)`, yet the single extra unit is added to subject 0: the
tie-break key rounds both remainders to the same 10-decimal value 0, and the
reversed index tie-break then prefers subject 0, so the unit is not given to a
subject with the largest fractional remainder. -/
theorem C8_counterexample :
    remainderNB 3 monsterCV = 1 ∧
    intsNB 3 monsterCV = (2 : ℤ) :: List.replicate monsterK 0 ∧
    no_binary_search_compute_budget 3 monsterCV =
      some ((3 : ℤ) :: List.replicate monsterK 0) ∧
    fracPart (floatsNB 3 monsterCV) (intsNB 3 monsterCV) 0 <
      fracPart (floatsNB 3 monsterCV) (intsNB 3 monsterCV) 1 :=
  ⟨monster_remainderNB, monster_intsNB, monster_final, by
    rw [monster_frac0, monster_frac1]
    have h := monster_one_le
    exact div_pos one_pos (by linarith)⟩

/-- C8 amended: with a positive shortfall, `compute_budget` always
distributes the extra units one at a time along its tie-break index list,
which enumerates all subjects sorted by strictly-larger fractional
remainder first and lower index first among equal remainders;
`no_binary_search_compute_budget` walks the same list provided distinct
fractional remainders are separated by more than `10⁻¹⁰` (so that rounding
its key to 10 decimal places cannot collapse or reorder them). -/
theorem C8_largest_remainder_amended (B : ℤ) (cv : List (List ℤ)) (hcv : cv ≠ [])
    (h0 : 0 < remainderC B cv) :
    (sortIndices (keyC (floatsC B cv) (intsC B cv)) (numSubjects cv)).Sorted
        (lrOrder (fracPart (floatsC B cv) (intsC B cv))) ∧
    (sortIndices (keyC (floatsC B cv) (intsC B cv)) (numSubjects cv)).Perm
        (List.range (numSubjects cv)) ∧
    compute_budget B cv =
      distribute_units (sortIndices (keyC (floatsC B cv) (intsC B cv)) (numSubjects cv))
        (intsC B cv) 0 (remainderC B cv).toNat ∧
    ((∀ i < numSubjects cv, ∀ j < numSubjects cv,
        fracPart (floatsC B cv) (intsC B cv) i ≠ fracPart (floatsC B cv) (intsC B cv) j →
        1 / 10 ^ 10 <
          |fracPart (floatsC B cv) (intsC B cv) i - fracPart (floatsC B cv) (intsC B cv) j|) →
      no_binary_search_compute_budget B cv =
        distribute_units_mod (sortIndices (keyC (floatsC B cv) (intsC B cv)) (numSubjects cv))
          (numSubjects cv) (intsC B cv) 0 (remainderC B cv).toNat) := by
  refine ⟨sortIndices_sorted_lr _ _ _, sortIndices_perm _ _, ?_, ?_⟩
  · unfold compute_budget
    rw [if_neg hcv]
    dsimp only
    rw [if_pos h0]
  · intro hsep
    rw [no_binary_eq B cv hcv (by rw [← remainderC_eq_remainderNB]; exact h0)]
    rw [← floatsC_eq_floatsNB, ← intsC_eq_intsNB, ← remainderC_eq_remainderNB]
    rw [sortIndices_eq_of_sep _ _ _ hsep]

set_option maxRecDepth 6000 in
/-- Witness for the amended C8 at budget 3 and votes `[[1]]`: one subject,
shortfall 2, separation vacuous. -/
theorem C8_largest_remainder_amended_witness :
    (sortIndices (keyC (floatsC 3 [[1]]) (intsC 3 [[1]])) (numSubjects [[1]])).Sorted
        (lrOrder (fracPart (floatsC 3 [[1]]) (intsC 3 [[1]]))) ∧
    (sortIndices (keyC (floatsC 3 [[1]]) (intsC 3 [[1]])) (numSubjects [[1]])).Perm
        (List.range (numSubjects [[1]])) ∧
    compute_budget 3 [[1]] =
      distribute_units (sortIndices (keyC (floatsC 3 [[1]]) (intsC 3 [[1]]))
        (numSubjects [[1]])) (intsC 3 [[1]]) 0 (remainderC 3 [[1]]).toNat ∧
    ((∀ i < numSubjects [[1]], ∀ j < numSubjects [[1]],
        fracPart (floatsC 3 [[1]]) (intsC 3 [[1]]) i ≠
          fracPart (floatsC 3 [[1]]) (intsC 3 [[1]]) j →
        1 / 10 ^ 10 <
          |fracPart (floatsC 3 [[1]]) (intsC 3 [[1]]) i -
            fracPart (floatsC 3 [[1]]) (intsC 3 [[1]]) j|) →
      no_binary_search_compute_budget 3 [[1]] =
        distribute_units_mod (sortIndices (keyC (floatsC 3 [[1]]) (intsC 3 [[1]]))
          (numSubjects [[1]])) (numSubjects [[1]]) (intsC 3 [[1]]) 0
          (remainderC 3 [[1]]).toNat) :=
  C8_largest_remainder_amended 3 [[1]] (by simp)
    (by rw [show remainderC 3 [[1]] = 2 from by with_unfolding_all rfl]; norm_num)

end Matala9
